import Mathlib

/-!
Verification of the CRF slot-filling decode/encode layer and the shared
feature-vector extractors of the snips-nlu core.

Rust strings are modelled as `List Char` (tag labels, slot names) or as raw
byte sequences `List Nat` (the source text, which the decoder slices by byte
range).  Rust panics (out-of-bounds indexing, `unwrap` on `None`) are modelled
by `Option`: a function returns `none` exactly when the Rust original panics.
`f64` feature values are modelled by `Rat`: the code only ever stores the
constants `0.0` and `1.0`, both exactly representable, and performs no
floating-point arithmetic on them.
-/

set_option autoImplicit false
set_option maxRecDepth 8000

namespace Snips

/-- A half-open index range `start..stop`, modelling Rust `std::ops::Range<usize>`
(the Rust field `end` is a Lean keyword, hence `stop`). -/
structure Range where
  start : Nat
  stop : Nat
deriving DecidableEq, Inhabited

/-- Modelled from the spec: a token produced by the external tokenizer
(`snips_nlu_utils::token::Token`), carrying a surface value, a byte-offset
range and a separate character-offset range into the source text. -/
structure Token where
  value : List Char
  range : Range
  char_range : Range
deriving DecidableEq, Inhabited

/-- A tag label, a Rust `String` modelled at character level. -/
abbrev Tag := List Char

def BEGINNING_PREFIX : Tag := ['B', '-']

def INSIDE_PREFIX : Tag := ['I', '-']

def LAST_PREFIX : Tag := ['L', '-']

def UNIT_PREFIX : Tag := ['U', '-']

def OUTSIDE : Tag := ['O']

/-- The three tagging schemes (Rust enum `TaggingScheme`; constructor names are
lowercased). -/
inductive TaggingScheme where
  | io
  | bio
  | bilou
deriving DecidableEq

/-- `get_substitution_label`: `labels[0]` panics on an empty slice, hence the
`Option` result. -/
def get_substitution_label (labels : List Tag) : Option Tag :=
  if OUTSIDE ∈ labels then some OUTSIDE else labels[0]?

/-- Modelled from the spec: `suffix_from_char_index(tag, 2)` from the external
string utilities strips the fixed 2-character scheme prefix, leaving the slot
name. -/
def tag_name_to_slot_name (tag : Tag) : Tag :=
  tag.drop 2

def is_start_of_io_slot (tags : List Tag) (i : Nat) : Option Bool :=
  if i = 0 then do
    let t ← tags[i]?
    pure (decide (t ≠ OUTSIDE))
  else do
    let t ← tags[i]?
    if t = OUTSIDE then
      pure false
    else do
      let p ← tags[i - 1]?
      pure (decide (p = OUTSIDE))

def is_end_of_io_slot (tags : List Tag) (i : Nat) : Option Bool :=
  if i + 1 = tags.length then do
    let t ← tags[i]?
    pure (decide (t ≠ OUTSIDE))
  else do
    let t ← tags[i]?
    if t = OUTSIDE then
      pure false
    else do
      let nx ← tags[i + 1]?
      pure (decide (nx = OUTSIDE))

def is_start_of_bio_slot (tags : List Tag) (i : Nat) : Option Bool :=
  if i = 0 then do
    let t ← tags[i]?
    pure (decide (t ≠ OUTSIDE))
  else do
    let t ← tags[i]?
    if t = OUTSIDE then
      pure false
    else if BEGINNING_PREFIX.isPrefixOf t then
      pure true
    else do
      let p ← tags[i - 1]?
      pure (decide (p = OUTSIDE))

def is_end_of_bio_slot (tags : List Tag) (i : Nat) : Option Bool :=
  if i + 1 = tags.length then do
    let t ← tags[i]?
    pure (decide (t ≠ OUTSIDE))
  else do
    let t ← tags[i]?
    if t = OUTSIDE then
      pure false
    else do
      let nx ← tags[i + 1]?
      pure (!(INSIDE_PREFIX.isPrefixOf nx))

def is_start_of_bilou_slot (tags : List Tag) (i : Nat) : Option Bool :=
  if i = 0 then do
    let t ← tags[i]?
    pure (decide (t ≠ OUTSIDE))
  else do
    let t ← tags[i]?
    if t = OUTSIDE then
      pure false
    else if BEGINNING_PREFIX.isPrefixOf t || UNIT_PREFIX.isPrefixOf t then
      pure true
    else do
      let p ← tags[i - 1]?
      if UNIT_PREFIX.isPrefixOf p || LAST_PREFIX.isPrefixOf p then
        pure true
      else
        pure (decide (p = OUTSIDE))

def is_end_of_bilou_slot (tags : List Tag) (i : Nat) : Option Bool :=
  if i + 1 = tags.length then do
    let t ← tags[i]?
    pure (decide (t ≠ OUTSIDE))
  else do
    let t ← tags[i]?
    if t = OUTSIDE then
      pure false
    else do
      let nx ← tags[i + 1]?
      pure (decide (nx = OUTSIDE) || LAST_PREFIX.isPrefixOf t || UNIT_PREFIX.isPrefixOf t
            || BEGINNING_PREFIX.isPrefixOf nx || UNIT_PREFIX.isPrefixOf nx)

/-- Intermediate decode result (Rust struct `SlotRange`). -/
structure SlotRange where
  slot_name : Tag
  range : Range
  char_range : Range
deriving DecidableEq

/-- The body of the Rust `for (i, tag) in tags.iter().enumerate()` loop of
`_tags_to_slots`, as structural recursion over the remaining tags.  `i` is the
current index, `cs` the tracked `current_slot_start`.  On a start trigger the
tracked start moves to `i`; on an end trigger a `SlotRange` is emitted and the
tracked start is reset to `i`. -/
def tagsLoop (isS isE : List Tag → Nat → Option Bool) (tags : List Tag)
    (tokens : List Token) : List Tag → Nat → Nat → Option (List SlotRange)
  | [], _, _ => some []
  | tag :: rest, i, cs => do
    let st ← isS tags i
    let cs1 := if st then i else cs
    let en ← isE tags i
    if en then do
      let tokS ← tokens[cs1]?
      let tokE ← tokens[i]?
      let slots ← tagsLoop isS isE tags tokens rest (i + 1) i
      pure ({ slot_name := tag_name_to_slot_name tag,
              range := ⟨tokS.range.start, tokE.range.stop⟩,
              char_range := ⟨tokS.char_range.start, tokE.char_range.stop⟩ } :: slots)
    else
      tagsLoop isS isE tags tokens rest (i + 1) cs1

/-- Rust `_tags_to_slots`, generic in the boundary predicates. -/
def tagsToSlotsImpl (tags : List Tag) (tokens : List Token)
    (isS isE : List Tag → Nat → Option Bool) : Option (List SlotRange) :=
  tagsLoop isS isE tags tokens tags 0 0

def tags_to_slot_ranges (tokens : List Token) (tags : List Tag) :
    TaggingScheme → Option (List SlotRange)
  | TaggingScheme.io => tagsToSlotsImpl tags tokens is_start_of_io_slot is_end_of_io_slot
  | TaggingScheme.bio => tagsToSlotsImpl tags tokens is_start_of_bio_slot is_end_of_bio_slot
  | TaggingScheme.bilou => tagsToSlotsImpl tags tokens is_start_of_bilou_slot is_end_of_bilou_slot

/-- Modelled from the spec: the final slot (`InternalSlot` from `slot_utils`) —
text value (sliced from the source text by byte range), resolved entity type,
char range and slot name. -/
structure InternalSlot where
  value : List Nat
  entity : List Char
  char_range : Range
  slot_name : Tag
deriving DecidableEq

/-- Rust byte slicing `&text[start..stop]` of a `String`: panics (`none`) when
the range is inverted or past the end.  (Panics on non-UTF-8-boundary indices
sit below this byte-level abstraction and are not modelled.) -/
def sliceBytes (text : List Nat) (r : Range) : Option (List Nat) :=
  if r.start ≤ r.stop ∧ r.stop ≤ text.length then
    some ((text.drop r.start).take (r.stop - r.start))
  else
    none

/-- The error message built by `tags_to_slots` for an unmapped slot name. -/
def missingMsg (name : Tag) : List Char :=
  ("Missing slot to entity mapping for slot name: ").toList ++ name

/-- The `.map(...).collect::<Result<Vec<_>>>()` body of `tags_to_slots`: for each
`SlotRange` in order, slice the text by byte range (a panic point, outer
`Option`), then resolve the entity through the mapping (the recoverable error,
inner `Except`), stopping at the first error. -/
def resolveSlots (text : List Nat) (mapping : Tag → Option (List Char)) :
    List SlotRange → Option (Except (List Char) (List InternalSlot))
  | [] => some (Except.ok [])
  | s :: rest => do
    let v ← sliceBytes text s.range
    match mapping s.slot_name with
    | none => some (Except.error (missingMsg s.slot_name))
    | some e => do
      let r ← resolveSlots text mapping rest
      match r with
      | Except.error m => some (Except.error m)
      | Except.ok l =>
        some (Except.ok (({ value := v, entity := e, char_range := s.char_range,
                            slot_name := s.slot_name } : InternalSlot) :: l))

def tags_to_slots (text : List Nat) (tokens : List Token) (tags : List Tag)
    (tagging_scheme : TaggingScheme) (intent_slots_mapping : Tag → Option (List Char)) :
    Option (Except (List Char) (List InternalSlot)) := do
  let ranges ← tags_to_slot_ranges tokens tags tagging_scheme
  resolveSlots text intent_slots_mapping ranges

/-- Rust `get_scheme_prefix`: `indexes[0]` and `indexes.last().unwrap()` panic on
an empty slice, hence the `Option`. -/
def get_scheme_prefix (index : Nat) (indexes : List Nat) :
    TaggingScheme → Option Tag
  | TaggingScheme.io => some INSIDE_PREFIX
  | TaggingScheme.bio => do
    let f ← indexes[0]?
    pure (if index = f then BEGINNING_PREFIX else INSIDE_PREFIX)
  | TaggingScheme.bilou =>
    if indexes.length = 1 then
      some UNIT_PREFIX
    else do
      let f ← indexes[0]?
      if index = f then
        pure BEGINNING_PREFIX
      else do
        let l ← indexes.getLast?
        pure (if index = l then LAST_PREFIX else INSIDE_PREFIX)

/-- Modelled from the spec: a normalized token of the preprocessing module —
surface value, normalized value, byte range, char range, optional preset
entity. -/
structure NormalizedToken where
  value : List Char
  normalized_value : List Char
  range : Range
  char_range : Range
  entity : Option (List Char)
deriving DecidableEq

/-- Modelled from the spec: the preprocessor output consumed by the feature
extractors — the token list plus the two independent n-gram collections, each
an ordered list of (n-gram text, covered token indices). -/
structure PreprocessorResult where
  tokens : List NormalizedToken
  normalized_ngrams : List (List Char × List Nat)
  formatted_ngrams : List (List Char × List Nat)
deriving DecidableEq

/-- Rust `result[index] = 1.0`: panics (`none`) when the index is out of
bounds. -/
def setOne (res : List Rat) (idx : Nat) : Option (List Rat) :=
  if idx < res.length then some (res.set idx 1) else none

/-- The inner `for index in &ngram.1` loop. -/
def setIndices (res : List Rat) (idxs : List Nat) : Option (List Rat) :=
  idxs.foldlM setOne res

/-- Rust `has_gazetteer_hits`; the gazetteer capability is its membership
test. -/
def has_gazetteer_hits (pr : PreprocessorResult) (gazetteer : List Char → Bool) :
    Option (List Rat) :=
  pr.normalized_ngrams.foldlM
    (fun res ng => if gazetteer ng.1 then setIndices res ng.2 else some res)
    (List.replicate pr.tokens.length 0)

/-- Rust `ngram_matcher`: exact string equality against a fixed literal, over
the formatted n-gram collection. -/
def ngram_matcher (pr : PreprocessorResult) (ngram_to_check : List Char) :
    Option (List Rat) :=
  pr.formatted_ngrams.foldlM
    (fun res ng => if ng.1 = ngram_to_check then setIndices res ng.2 else some res)
    (List.replicate pr.tokens.length 0)

/-! Helper abstractions used by the proofs below. -/

/-- Total (`getD`-based) value of `is_start_of_io_slot` at in-bounds indices. -/
def ioStartB (tags : List Tag) (i : Nat) : Bool :=
  if i = 0 then tags.getD 0 [] ≠ OUTSIDE
  else if tags.getD i [] = OUTSIDE then false
  else tags.getD (i - 1) [] = OUTSIDE

/-- Total value of `is_end_of_io_slot` at in-bounds indices. -/
def ioEndB (tags : List Tag) (i : Nat) : Bool :=
  if i + 1 = tags.length then tags.getD i [] ≠ OUTSIDE
  else if tags.getD i [] = OUTSIDE then false
  else tags.getD (i + 1) [] = OUTSIDE

/-- Total value of `is_start_of_bio_slot` at in-bounds indices. -/
def bioStartB (tags : List Tag) (i : Nat) : Bool :=
  if i = 0 then tags.getD 0 [] ≠ OUTSIDE
  else if tags.getD i [] = OUTSIDE then false
  else if BEGINNING_PREFIX.isPrefixOf (tags.getD i []) then true
  else tags.getD (i - 1) [] = OUTSIDE

/-- Total value of `is_end_of_bio_slot` at in-bounds indices. -/
def bioEndB (tags : List Tag) (i : Nat) : Bool :=
  if i + 1 = tags.length then tags.getD i [] ≠ OUTSIDE
  else if tags.getD i [] = OUTSIDE then false
  else !(INSIDE_PREFIX.isPrefixOf (tags.getD (i + 1) []))

/-- Total value of `is_start_of_bilou_slot` at in-bounds indices. -/
def bilouStartB (tags : List Tag) (i : Nat) : Bool :=
  if i = 0 then tags.getD 0 [] ≠ OUTSIDE
  else if tags.getD i [] = OUTSIDE then false
  else if BEGINNING_PREFIX.isPrefixOf (tags.getD i [])
      || UNIT_PREFIX.isPrefixOf (tags.getD i []) then true
  else if UNIT_PREFIX.isPrefixOf (tags.getD (i - 1) [])
      || LAST_PREFIX.isPrefixOf (tags.getD (i - 1) []) then true
  else tags.getD (i - 1) [] = OUTSIDE

/-- Total value of `is_end_of_bilou_slot` at in-bounds indices. -/
def bilouEndB (tags : List Tag) (i : Nat) : Bool :=
  if i + 1 = tags.length then tags.getD i [] ≠ OUTSIDE
  else if tags.getD i [] = OUTSIDE then false
  else decide (tags.getD (i + 1) [] = OUTSIDE)
      || LAST_PREFIX.isPrefixOf (tags.getD i [])
      || UNIT_PREFIX.isPrefixOf (tags.getD i [])
      || BEGINNING_PREFIX.isPrefixOf (tags.getD (i + 1) [])
      || UNIT_PREFIX.isPrefixOf (tags.getD (i + 1) [])

/-- Abstract version of the decode loop: the `(current_slot_start, end)` index
pairs it emits, given total boolean boundary predicates.  `fuel` plays the
role of the remaining tag list. -/
def runsFrom (isS isE : Nat → Bool) : Nat → Nat → Nat → List (Nat × Nat)
  | 0, _, _ => []
  | fuel + 1, i, cs =>
    let cs1 := if isS i then i else cs
    if isE i then (cs1, i) :: runsFrom isS isE fuel (i + 1) i
    else runsFrom isS isE fuel (i + 1) cs1

/-- The tracked `current_slot_start` after the abstract loop has processed
`fuel` positions starting at `i`. -/
def csAfter (isS isE : Nat → Bool) : Nat → Nat → Nat → Nat
  | 0, _, cs => cs
  | fuel + 1, i, cs =>
    let cs1 := if isS i then i else cs
    csAfter isS isE fuel (i + 1) (if isE i then i else cs1)

/-- The tag sequence of the encode/decode round trip: the scheme prefix plus
the slot name on the annotated span `[i..j]`, the outside marker elsewhere. -/
def encodeTags (n i j : Nat) (name : List Char) (scheme : TaggingScheme) : List Tag :=
  (List.range n).map (fun k =>
    if i ≤ k ∧ k ≤ j then
      (( get_scheme_prefix k (List.range' i (j - i + 1)) scheme).getD []) ++ name
    else OUTSIDE)

/-- The `SlotRange` the decode loop emits for the index pair `p`. -/
def mkSlotRange (tokens : List Token) (tags : List Tag) (p : Nat × Nat) : SlotRange :=
  { slot_name := tag_name_to_slot_name (tags.getD p.2 []),
    range := ⟨(tokens.getD p.1 default).range.start, (tokens.getD p.2 default).range.stop⟩,
    char_range := ⟨(tokens.getD p.1 default).char_range.start,
                   (tokens.getD p.2 default).char_range.stop⟩ }

/-- The resolved `InternalSlot` for a `SlotRange` whose slot name is mapped. -/
def resolveSlot (text : List Nat) (mapping : Tag → Option (List Char)) (s : SlotRange) :
    InternalSlot :=
  { value := (text.drop s.range.start).take (s.range.stop - s.range.start),
    entity := (mapping s.slot_name).getD [],
    char_range := s.char_range,
    slot_name := s.slot_name }

/-! ### Basic lemmas -/

theorem getElem?_eq_some_getD {α : Type} (l : List α) (d : α) (i : Nat)
    (h : i < l.length) : l[i]? = some (l.getD i d) := by
  simp [List.getD_eq_getElem?_getD, List.getElem?_eq_getElem h]

theorem isPrefixOf_eq_decide (p l : List Char) :
    p.isPrefixOf l = decide (p <+: l) := by
  by_cases h : p <+: l
  · simp [List.isPrefixOf_iff_prefix, h]
  · cases hb : p.isPrefixOf l with
    | false => simp [h]
    | true => exact absurd (List.isPrefixOf_iff_prefix.mp hb) h


theorem is_start_of_io_slot_eq (tags : List Tag) (i : Nat) (hi : i < tags.length) :
    is_start_of_io_slot tags i = some (ioStartB tags i) := by
  have h := getElem?_eq_some_getD tags [] i hi
  unfold is_start_of_io_slot ioStartB
  by_cases h0 : i = 0
  · subst h0
    generalize tags.getD 0 [] = ti at h ⊢
    simp [h]
  · have h' := getElem?_eq_some_getD tags [] (i - 1) (Nat.lt_of_le_of_lt (Nat.sub_le i 1) hi)
    generalize tags.getD i [] = ti at h ⊢
    generalize tags.getD (i - 1) [] = tp at h' ⊢
    by_cases hO : ti = OUTSIDE <;> simp [h, h', h0, hO]

theorem is_end_of_io_slot_eq (tags : List Tag) (i : Nat) (hi : i < tags.length) :
    is_end_of_io_slot tags i = some (ioEndB tags i) := by
  have h := getElem?_eq_some_getD tags [] i hi
  unfold is_end_of_io_slot ioEndB
  by_cases h0 : i + 1 = tags.length
  · generalize tags.getD i [] = ti at h ⊢
    simp [h, h0]
  · have h' := getElem?_eq_some_getD tags [] (i + 1) (by omega)
    generalize tags.getD i [] = ti at h ⊢
    generalize tags.getD (i + 1) [] = tn at h' ⊢
    by_cases hO : ti = OUTSIDE <;> simp [h, h', h0, hO]

theorem is_start_of_bio_slot_eq (tags : List Tag) (i : Nat) (hi : i < tags.length) :
    is_start_of_bio_slot tags i = some (bioStartB tags i) := by
  have h := getElem?_eq_some_getD tags [] i hi
  unfold is_start_of_bio_slot bioStartB
  by_cases h0 : i = 0
  · subst h0
    generalize tags.getD 0 [] = ti at h ⊢
    simp [h]
  · have h' := getElem?_eq_some_getD tags [] (i - 1) (Nat.lt_of_le_of_lt (Nat.sub_le i 1) hi)
    generalize tags.getD i [] = ti at h ⊢
    generalize tags.getD (i - 1) [] = tp at h' ⊢
    by_cases hO : ti = OUTSIDE <;> by_cases hB : BEGINNING_PREFIX <+: ti <;>
      simp [h, h', h0, hO, hB]

theorem is_end_of_bio_slot_eq (tags : List Tag) (i : Nat) (hi : i < tags.length) :
    is_end_of_bio_slot tags i = some (bioEndB tags i) := by
  have h := getElem?_eq_some_getD tags [] i hi
  unfold is_end_of_bio_slot bioEndB
  by_cases h0 : i + 1 = tags.length
  · generalize tags.getD i [] = ti at h ⊢
    simp [h, h0]
  · have h' := getElem?_eq_some_getD tags [] (i + 1) (by omega)
    generalize tags.getD i [] = ti at h ⊢
    generalize tags.getD (i + 1) [] = tn at h' ⊢
    by_cases hO : ti = OUTSIDE <;> simp [h, h', h0, hO]

theorem is_start_of_bilou_slot_eq (tags : List Tag) (i : Nat) (hi : i < tags.length) :
    is_start_of_bilou_slot tags i = some (bilouStartB tags i) := by
  have h := getElem?_eq_some_getD tags [] i hi
  unfold is_start_of_bilou_slot bilouStartB
  by_cases h0 : i = 0
  · subst h0
    generalize tags.getD 0 [] = ti at h ⊢
    simp [h]
  · have h' := getElem?_eq_some_getD tags [] (i - 1) (Nat.lt_of_le_of_lt (Nat.sub_le i 1) hi)
    generalize tags.getD i [] = ti at h ⊢
    generalize tags.getD (i - 1) [] = tp at h' ⊢
    by_cases hO : ti = OUTSIDE <;>
      by_cases hB : BEGINNING_PREFIX <+: ti <;>
        by_cases hU : UNIT_PREFIX <+: ti <;>
          by_cases hPU : UNIT_PREFIX <+: tp <;>
            by_cases hPL : LAST_PREFIX <+: tp <;>
              simp [h, h', h0, hO, hB, hU, hPU, hPL]

theorem is_end_of_bilou_slot_eq (tags : List Tag) (i : Nat) (hi : i < tags.length) :
    is_end_of_bilou_slot tags i = some (bilouEndB tags i) := by
  have h := getElem?_eq_some_getD tags [] i hi
  unfold is_end_of_bilou_slot bilouEndB
  by_cases h0 : i + 1 = tags.length
  · generalize tags.getD i [] = ti at h ⊢
    simp [h, h0]
  · have h' := getElem?_eq_some_getD tags [] (i + 1) (by omega)
    generalize tags.getD i [] = ti at h ⊢
    generalize tags.getD (i + 1) [] = tn at h' ⊢
    by_cases hO : ti = OUTSIDE <;> simp [h, h', h0, hO]

/-! ### Claim theorems: C10, C7, C1, C5 -/

/-- C10: for every non-empty list of label strings, `get_substitution_label`
returns the outside marker when it occurs anywhere in the list, and otherwise
the first element; it never returns any other value. -/
theorem C10_get_substitution_label_spec (labels : List Tag) (h : labels ≠ []) :
    (OUTSIDE ∈ labels → get_substitution_label labels = some OUTSIDE) ∧
    (OUTSIDE ∉ labels → get_substitution_label labels = some (labels.head h)) ∧
    (∀ r, get_substitution_label labels = some r →
      r = OUTSIDE ∨ r = labels.head h) := by
  obtain ⟨a, t, rfl⟩ := List.exists_cons_of_ne_nil h
  refine ⟨fun hm => by simp [get_substitution_label, hm], fun hm => ?_, fun r hr => ?_⟩
  · simp [get_substitution_label, hm]
  · by_cases hm : OUTSIDE ∈ a :: t
    · simp [get_substitution_label, hm] at hr
      exact Or.inl hr.symm
    · simp [get_substitution_label, hm] at hr
      exact Or.inr (by simp [hr.symm])

/-- C10 witness. -/
theorem C10_witness :
    (["B-a".toList, "O".toList] : List Tag) ≠ [] ∧
    (OUTSIDE ∈ (["B-a".toList, "O".toList] : List Tag) →
      get_substitution_label ["B-a".toList, "O".toList] = some OUTSIDE) := by
  refine ⟨by decide, ?_⟩
  exact (C10_get_substitution_label_spec ["B-a".toList, "O".toList] (by decide)).1

/-- C7: for every token index and non-empty sorted index list,
`get_scheme_prefix` is Inside under IO; under BIO it is Beginning exactly at
the first element and Inside otherwise; under BILOU it is Unit for a singleton
list, else Beginning at the first element, Last at the last element, Inside
otherwise. -/
theorem C7_get_scheme_prefix_spec (index : Nat) (indexes : List Nat)
    (h : indexes ≠ []) (hsorted : indexes.Sorted (· ≤ ·)) :
    get_scheme_prefix index indexes TaggingScheme.io = some INSIDE_PREFIX ∧
    get_scheme_prefix index indexes TaggingScheme.bio =
      some (if index = indexes.head h then BEGINNING_PREFIX else INSIDE_PREFIX) ∧
    get_scheme_prefix index indexes TaggingScheme.bilou =
      some (if indexes.length = 1 then UNIT_PREFIX
            else if index = indexes.head h then BEGINNING_PREFIX
            else if index = indexes.getLast h then LAST_PREFIX
            else INSIDE_PREFIX) := by
  obtain ⟨a, t, rfl⟩ := List.exists_cons_of_ne_nil h
  refine ⟨rfl, by simp [ get_scheme_prefix], ?_⟩
  by_cases h1 : (a :: t).length = 1
  · simp [ get_scheme_prefix, h1]
  · have ht : t ≠ [] := by
      intro he
      exact h1 (by simp [he])
    have hlast : (a :: t).getLast? = some ((a :: t).getLast (by simp)) :=
      List.getLast?_eq_getLast _ (by simp)
    by_cases hf : index = a <;>
      simp [ get_scheme_prefix, h1, hf, hlast, ht]

/-- C7 witness. -/
theorem C7_witness :
    ([3, 4, 5] : List Nat) ≠ [] ∧ ([3, 4, 5] : List Nat).Sorted (· ≤ ·) ∧
    get_scheme_prefix 5 [3, 4, 5] TaggingScheme.bilou =
      some (if ([3, 4, 5] : List Nat).length = 1 then UNIT_PREFIX
            else if 5 = ([3, 4, 5] : List Nat).head (by decide) then BEGINNING_PREFIX
            else if 5 = ([3, 4, 5] : List Nat).getLast (by decide) then LAST_PREFIX
            else INSIDE_PREFIX) := by
  refine ⟨by decide, by decide, ?_⟩
  exact (C7_get_scheme_prefix_spec 5 [3, 4, 5] (by decide) (by decide)).2.2

/-- C1: whenever the end-of-slot trigger fires at position `i`, the decode loop
emits a `SlotRange` and resets the tracked slot start to `i` (first conjunct:
one unfolding of the loop); in particular, under BILOU, tokens at char ranges
0..4, 5..9, 10..14 with tags `L-animal, B-animal, U-animal` decode to exactly
three `SlotRange`s at char ranges 0..4, 5..9, 10..14, all named `animal`. -/
theorem C1_end_trigger_emits_and_resets
    (isS isE : List Tag → Nat → Option Bool) (tags : List Tag)
    (tokens : List Token) (tag : Tag) (rest : List Tag) (i cs : Nat) (st : Bool)
    (hS : isS tags i = some st) (hE : isE tags i = some true) :
    tagsLoop isS isE tags tokens (tag :: rest) i cs =
      (do
        let tokS ← tokens[if st then i else cs]?
        let tokE ← tokens[i]?
        let slots ← tagsLoop isS isE tags tokens rest (i + 1) i
        pure (({ slot_name := tag_name_to_slot_name tag,
                 range := ⟨tokS.range.start, tokE.range.stop⟩,
                 char_range := ⟨tokS.char_range.start, tokE.char_range.stop⟩ } :
                SlotRange) :: slots)) ∧
    tags_to_slot_ranges
        [⟨"bird".toList, ⟨0, 4⟩, ⟨0, 4⟩⟩, ⟨"bird".toList, ⟨5, 9⟩, ⟨5, 9⟩⟩,
         ⟨"bird".toList, ⟨10, 14⟩, ⟨10, 14⟩⟩]
        ["L-animal".toList, "B-animal".toList, "U-animal".toList]
        TaggingScheme.bilou =
      some [⟨"animal".toList, ⟨0, 4⟩, ⟨0, 4⟩⟩, ⟨"animal".toList, ⟨5, 9⟩, ⟨5, 9⟩⟩,
            ⟨"animal".toList, ⟨10, 14⟩, ⟨10, 14⟩⟩] := by
  constructor
  · simp [tagsLoop, hS, hE]
  · decide

/-- C1 witness. -/
theorem C1_witness :
    is_start_of_bilou_slot ["U-a".toList] 0 = some true ∧
    is_end_of_bilou_slot ["U-a".toList] 0 = some true ∧
    tagsLoop is_start_of_bilou_slot is_end_of_bilou_slot ["U-a".toList]
        [⟨"a".toList, ⟨0, 1⟩, ⟨0, 1⟩⟩] ["U-a".toList] 0 0 =
      (do
        let tokS ← ([⟨"a".toList, ⟨0, 1⟩, ⟨0, 1⟩⟩] : List Token)[if true then 0 else 0]?
        let tokE ← ([⟨"a".toList, ⟨0, 1⟩, ⟨0, 1⟩⟩] : List Token)[0]?
        let slots ← tagsLoop is_start_of_bilou_slot is_end_of_bilou_slot ["U-a".toList]
          [⟨"a".toList, ⟨0, 1⟩, ⟨0, 1⟩⟩] [] 1 0
        pure (({ slot_name := tag_name_to_slot_name "U-a".toList,
                 range := ⟨tokS.range.start, tokE.range.stop⟩,
                 char_range := ⟨tokS.char_range.start, tokE.char_range.stop⟩ } :
                SlotRange) :: slots)) := by
  refine ⟨by decide, by decide, ?_⟩
  exact (C1_end_trigger_emits_and_resets is_start_of_bilou_slot is_end_of_bilou_slot
    ["U-a".toList] [⟨"a".toList, ⟨0, 1⟩, ⟨0, 1⟩⟩] "U-a".toList [] 0 0 true
    (by decide) (by decide)).1

/-- C5: characterization of the BIO boundary predicates at every in-range
position: a start exactly at position 0 with a non-outside tag, at a
Beginning-prefixed non-outside tag, or at a non-outside tag right after an
outside tag; an end exactly at the last position with a non-outside tag, or at
a non-outside tag whose successor tag does not carry the Inside prefix. -/
theorem C5_bio_boundary_predicates (tags : List Tag) (i : Nat)
    (hi : i < tags.length) :
    (is_start_of_bio_slot tags i = some true ↔
      ((i = 0 ∧ tags.getD 0 [] ≠ OUTSIDE) ∨
       (tags.getD i [] ≠ OUTSIDE ∧ BEGINNING_PREFIX.isPrefixOf (tags.getD i [])) ∨
       (i ≠ 0 ∧ tags.getD i [] ≠ OUTSIDE ∧ tags.getD (i - 1) [] = OUTSIDE))) ∧
    (is_end_of_bio_slot tags i = some true ↔
      ((i + 1 = tags.length ∧ tags.getD i [] ≠ OUTSIDE) ∨
       (i + 1 ≠ tags.length ∧ tags.getD i [] ≠ OUTSIDE ∧
        ¬ INSIDE_PREFIX.isPrefixOf (tags.getD (i + 1) [])))) := by
  constructor
  · rw [is_start_of_bio_slot_eq tags i hi, Option.some_inj]
    unfold bioStartB
    by_cases h0 : i = 0
    · subst h0
      by_cases hO : tags.getD 0 [] = OUTSIDE <;> simp [hO] <;> tauto
    · by_cases hO : tags.getD i [] = OUTSIDE <;>
        by_cases hB : BEGINNING_PREFIX <+: tags.getD i [] <;>
          by_cases hP : tags.getD (i - 1) [] = OUTSIDE <;>
            simp [h0, hO, hB, hP, isPrefixOf_eq_decide] <;> tauto
  · rw [is_end_of_bio_slot_eq tags i hi, Option.some_inj]
    unfold bioEndB
    by_cases h0 : i + 1 = tags.length
    · by_cases hO : tags.getD i [] = OUTSIDE <;> simp [h0, hO] <;> tauto
    · by_cases hO : tags.getD i [] = OUTSIDE <;>
        by_cases hI : INSIDE_PREFIX <+: tags.getD (i + 1) [] <;>
          simp [h0, hO, hI, isPrefixOf_eq_decide] <;> tauto

/-- C5 witness. -/
theorem C5_witness :
    (0 : Nat) < (["B-a".toList, "I-a".toList] : List Tag).length ∧
    (is_start_of_bio_slot ["B-a".toList, "I-a".toList] 0 = some true ↔
      ((0 = 0 ∧ (["B-a".toList, "I-a".toList] : List Tag).getD 0 [] ≠ OUTSIDE) ∨
       ((["B-a".toList, "I-a".toList] : List Tag).getD 0 [] ≠ OUTSIDE ∧
        BEGINNING_PREFIX.isPrefixOf ((["B-a".toList, "I-a".toList] : List Tag).getD 0 [])) ∨
       ((0 : Nat) ≠ 0 ∧ (["B-a".toList, "I-a".toList] : List Tag).getD 0 [] ≠ OUTSIDE ∧
        (["B-a".toList, "I-a".toList] : List Tag).getD (0 - 1) [] = OUTSIDE))) := by
  refine ⟨by decide, ?_⟩
  exact (C5_bio_boundary_predicates ["B-a".toList, "I-a".toList] 0 (by decide)).1


/-! ### The decode loop and its abstract runs -/

theorem tagsLoop_eq_runsFrom
    (isS isE : List Tag → Nat → Option Bool) (isSB isEB : Nat → Bool)
    (tags : List Tag) (tokens : List Token)
    (hlen : tokens.length = tags.length)
    (hS : ∀ k, k < tags.length → isS tags k = some (isSB k))
    (hE : ∀ k, k < tags.length → isE tags k = some (isEB k)) :
    ∀ (rest : List Tag) (i cs : Nat), tags.drop i = rest → cs ≤ i →
      tagsLoop isS isE tags tokens rest i cs =
        some ((runsFrom isSB isEB rest.length i cs).map (mkSlotRange tokens tags)) := by
  intro rest
  induction rest with
  | nil =>
    intro i cs _ _
    simp [tagsLoop, runsFrom]
  | cons tag rest ih =>
    intro i cs hdrop hcs
    have hlt : i < tags.length := by
      have hl := congrArg List.length hdrop
      simp [List.length_drop] at hl
      omega
    have htag : tags.getD i [] = tag := by
      have h0 : tags[i]? = some tag := by
        have hD := List.getElem?_drop tags i 0
        rw [hdrop] at hD
        simpa using hD.symm
      simp [List.getD_eq_getElem?_getD, h0]
    have hdrop2 : tags.drop (i + 1) = rest := by
      have hT := List.tail_drop tags i
      rw [hdrop] at hT
      simpa using hT.symm
    have hS2 := hS i hlt
    have hE2 := hE i hlt
    cases hen : isEB i with
    | false =>
      have hstep : tagsLoop isS isE tags tokens (tag :: rest) i cs =
          tagsLoop isS isE tags tokens rest (i + 1) (if isSB i then i else cs) := by
        simp [tagsLoop, hS2, hE2, hen]
      have hrun : runsFrom isSB isEB (tag :: rest).length i cs =
          runsFrom isSB isEB rest.length (i + 1) (if isSB i then i else cs) := by
        simp [runsFrom, hen]
      rw [hstep, hrun]
      exact ih (i + 1) _ hdrop2 (by split <;> omega)
    | true =>
      have hcs1lt : (if isSB i then i else cs) < tokens.length := by
        rw [hlen]
        split <;> omega
      have h1 := getElem?_eq_some_getD tokens default (if isSB i then i else cs) hcs1lt
      have h2 := getElem?_eq_some_getD tokens default i (by rw [hlen]; omega)
      have hstep : tagsLoop isS isE tags tokens (tag :: rest) i cs =
          (tagsLoop isS isE tags tokens rest (i + 1) i).bind (fun slots =>
            some (mkSlotRange tokens tags ((if isSB i then i else cs), i) :: slots)) := by
        simp only [tagsLoop, hS2, hE2, hen, h1, h2, Option.bind_eq_bind, Option.some_bind,
          if_true, Option.pure_def, mkSlotRange, htag]
      have hrun : runsFrom isSB isEB (tag :: rest).length i cs =
          ((if isSB i then i else cs), i) :: runsFrom isSB isEB rest.length (i + 1) i := by
        simp [runsFrom, hen]
      rw [hstep, hrun, ih (i + 1) i hdrop2 (by omega)]
      simp

/-- C6: under the equal-length precondition of decode, all six boundary
predicates and `tags_to_slot_ranges` are total: every indexing of the tag and
token arrays stays in bounds, so the out-of-bounds (`none`) branch is
unreachable and decode never fails. -/
theorem C6_decode_total (tokens : List Token) (tags : List Tag)
    (scheme : TaggingScheme) (hlen : tags.length = tokens.length) :
    (∀ i, i < tags.length →
      (is_start_of_io_slot tags i).isSome ∧ (is_end_of_io_slot tags i).isSome ∧
      (is_start_of_bio_slot tags i).isSome ∧ (is_end_of_bio_slot tags i).isSome ∧
      (is_start_of_bilou_slot tags i).isSome ∧ (is_end_of_bilou_slot tags i).isSome) ∧
    (tags_to_slot_ranges tokens tags scheme).isSome := by
  constructor
  · intro i hi
    rw [is_start_of_io_slot_eq tags i hi, is_end_of_io_slot_eq tags i hi,
        is_start_of_bio_slot_eq tags i hi, is_end_of_bio_slot_eq tags i hi,
        is_start_of_bilou_slot_eq tags i hi, is_end_of_bilou_slot_eq tags i hi]
    simp
  · cases scheme with
    | io =>
      rw [show tags_to_slot_ranges tokens tags TaggingScheme.io =
            tagsLoop is_start_of_io_slot is_end_of_io_slot tags tokens tags 0 0 from rfl,
          tagsLoop_eq_runsFrom is_start_of_io_slot is_end_of_io_slot
            (ioStartB tags) (ioEndB tags) tags tokens hlen.symm
            (fun k hk => is_start_of_io_slot_eq tags k hk)
            (fun k hk => is_end_of_io_slot_eq tags k hk) tags 0 0 (by simp) (le_refl 0)]
      simp
    | bio =>
      rw [show tags_to_slot_ranges tokens tags TaggingScheme.bio =
            tagsLoop is_start_of_bio_slot is_end_of_bio_slot tags tokens tags 0 0 from rfl,
          tagsLoop_eq_runsFrom is_start_of_bio_slot is_end_of_bio_slot
            (bioStartB tags) (bioEndB tags) tags tokens hlen.symm
            (fun k hk => is_start_of_bio_slot_eq tags k hk)
            (fun k hk => is_end_of_bio_slot_eq tags k hk) tags 0 0 (by simp) (le_refl 0)]
      simp
    | bilou =>
      rw [show tags_to_slot_ranges tokens tags TaggingScheme.bilou =
            tagsLoop is_start_of_bilou_slot is_end_of_bilou_slot tags tokens tags 0 0 from rfl,
          tagsLoop_eq_runsFrom is_start_of_bilou_slot is_end_of_bilou_slot
            (bilouStartB tags) (bilouEndB tags) tags tokens hlen.symm
            (fun k hk => is_start_of_bilou_slot_eq tags k hk)
            (fun k hk => is_end_of_bilou_slot_eq tags k hk) tags 0 0 (by simp) (le_refl 0)]
      simp

/-- C6 witness. -/
theorem C6_witness :
    (["I-a".toList, "O".toList] : List Tag).length =
      ([⟨"x".toList, ⟨0, 1⟩, ⟨0, 1⟩⟩, ⟨"y".toList, ⟨2, 3⟩, ⟨2, 3⟩⟩] : List Token).length ∧
    (tags_to_slot_ranges [⟨"x".toList, ⟨0, 1⟩, ⟨0, 1⟩⟩, ⟨"y".toList, ⟨2, 3⟩, ⟨2, 3⟩⟩]
      ["I-a".toList, "O".toList] TaggingScheme.io).isSome := by
  refine ⟨by decide, ?_⟩
  exact (C6_decode_total [⟨"x".toList, ⟨0, 1⟩, ⟨0, 1⟩⟩, ⟨"y".toList, ⟨2, 3⟩, ⟨2, 3⟩⟩]
    ["I-a".toList, "O".toList] TaggingScheme.io (by decide)).2


/-! ### Structural lemmas about the abstract runs -/

theorem runsFrom_nil_of_no_end (isS isE : Nat → Bool) :
    ∀ (fuel i cs : Nat), (∀ k, i ≤ k → k < i + fuel → isE k = false) →
      runsFrom isS isE fuel i cs = [] := by
  intro fuel
  induction fuel with
  | zero => intro i cs _; rfl
  | succ fuel ih =>
    intro i cs hno
    have he : isE i = false := hno i (le_refl i) (by omega)
    simp only [runsFrom, he, Bool.false_eq_true, if_false]
    exact ih (i + 1) _ (fun k hk hk2 => hno k (by omega) (by omega))

theorem runsFrom_end_bounds (isS isE : Nat → Bool) :
    ∀ (fuel i cs : Nat) (p : Nat × Nat), p ∈ runsFrom isS isE fuel i cs →
      i ≤ p.2 ∧ p.2 < i + fuel := by
  intro fuel
  induction fuel with
  | zero => intro i cs p hp; simp [runsFrom] at hp
  | succ fuel ih =>
    intro i cs p hp
    simp only [runsFrom] at hp
    by_cases he : isE i
    · simp only [he, if_true, List.mem_cons] at hp
      rcases hp with rfl | hp
      · exact ⟨Nat.le_refl i, Nat.lt_add_of_pos_right (Nat.succ_pos fuel)⟩
      · have hb := ih (i + 1) i p hp
        exact ⟨by omega, by omega⟩
    · simp only [he, Bool.false_eq_true, if_false] at hp
      have hb := ih (i + 1) _ p hp
      exact ⟨by omega, by omega⟩

theorem runsFrom_append (isS isE : Nat → Bool) :
    ∀ (f1 f2 i cs : Nat),
      runsFrom isS isE (f1 + f2) i cs =
        runsFrom isS isE f1 i cs ++
          runsFrom isS isE f2 (i + f1) (csAfter isS isE f1 i cs) := by
  intro f1
  induction f1 with
  | zero =>
    intro f2 i cs
    simp [runsFrom, csAfter]
  | succ f1 ih =>
    intro f2 i cs
    have harith : f1 + 1 + f2 = (f1 + f2) + 1 := by omega
    have harith2 : i + (f1 + 1) = i + 1 + f1 := by omega
    rw [harith]
    by_cases he : isE i
    · simp only [runsFrom, csAfter, he, if_true, List.cons_append]
      rw [ih f2 (i + 1) i, harith2]
    · simp only [runsFrom, csAfter, he, Bool.false_eq_true, if_false]
      rw [ih f2 (i + 1) _, harith2]

theorem runsFrom_mid (isS isE : Nat → Bool) (i j : Nat)
    (hSmid : ∀ k, i < k → k ≤ j → isS k = false)
    (hEmid : ∀ k, i ≤ k → k < j → isE k = false)
    (hEj : isE j = true) :
    ∀ (fuel m : Nat), i < m → m ≤ j → j < m + fuel →
      runsFrom isS isE fuel m i =
        (i, j) :: runsFrom isS isE (fuel - (j + 1 - m)) (j + 1) j := by
  intro fuel
  induction fuel with
  | zero => intro m h1 h2 h3; omega
  | succ fuel ih =>
    intro m h1 h2 h3
    have hs : isS m = false := hSmid m h1 h2
    by_cases hm : m = j
    · subst hm
      simp only [runsFrom, hs, Bool.false_eq_true, if_false, hEj, if_true]
      have h4 : fuel + 1 - (m + 1 - m) = fuel := by omega
      rw [h4]
    · have he : isE m = false := hEmid m (by omega) (by omega)
      simp only [runsFrom, hs, Bool.false_eq_true, if_false, he]
      rw [ih (m + 1) (by omega) (by omega) (by omega)]
      have h4 : fuel - (j + 1 - (m + 1)) = fuel + 1 - (j + 1 - m) := by omega
      rw [h4]

theorem runsFrom_run (isS isE : Nat → Bool) (i j : Nat)
    (hij : i ≤ j)
    (hSi : isS i = true)
    (hSmid : ∀ k, i < k → k ≤ j → isS k = false)
    (hEmid : ∀ k, i ≤ k → k < j → isE k = false)
    (hEj : isE j = true) :
    ∀ (fuel cs : Nat), j < i + fuel →
      runsFrom isS isE fuel i cs =
        (i, j) :: runsFrom isS isE (fuel - (j + 1 - i)) (j + 1) j := by
  intro fuel cs hfuel
  cases fuel with
  | zero => omega
  | succ fuel =>
    by_cases hii : i = j
    · subst hii
      simp only [runsFrom, hSi, if_true, hEj]
      have h4 : fuel + 1 - (i + 1 - i) = fuel := by omega
      rw [h4]
    · have he : isE i = false := hEmid i (le_refl i) (by omega)
      simp only [runsFrom, hSi, if_true, he, Bool.false_eq_true, if_false]
      rw [runsFrom_mid isS isE i j hSmid hEmid hEj fuel (i + 1) (by omega) (by omega)
        (by omega)]
      have h4 : fuel - (j + 1 - (i + 1)) = fuel + 1 - (j + 1 - i) := by omega
      rw [h4]


/-- C4: under IO, a maximal run of non-outside tags from position `i` through
`j` decodes to exactly one `SlotRange` covering tokens `i` through `j` (every
other emitted index pair ends strictly outside the run), and the IO start/end
predicates hold exactly at a non-outside tag at position 0 or right after an
outside tag, respectively at a non-outside tag at the last position or right
before an outside tag. -/
theorem C4_io_decode_merges_adjacent_slots (tokens : List Token) (tags : List Tag)
    (i j : Nat)
    (hlen : tags.length = tokens.length) (hij : i ≤ j) (hjn : j < tags.length)
    (hrun : ∀ k, i ≤ k → k ≤ j → tags.getD k [] ≠ OUTSIDE)
    (hleft : i = 0 ∨ tags.getD (i - 1) [] = OUTSIDE)
    (hright : j + 1 = tags.length ∨ tags.getD (j + 1) [] = OUTSIDE) :
    (∀ k, k < tags.length →
      (is_start_of_io_slot tags k = some true ↔
        (tags.getD k [] ≠ OUTSIDE ∧ (k = 0 ∨ tags.getD (k - 1) [] = OUTSIDE))) ∧
      (is_end_of_io_slot tags k = some true ↔
        (tags.getD k [] ≠ OUTSIDE ∧
          (k + 1 = tags.length ∨ tags.getD (k + 1) [] = OUTSIDE)))) ∧
    (∃ pre post : List (Nat × Nat),
      tags_to_slot_ranges tokens tags TaggingScheme.io =
        some ((pre ++ (i, j) :: post).map (mkSlotRange tokens tags)) ∧
      (∀ p ∈ pre, p.2 < i) ∧ (∀ p ∈ post, j < p.2)) := by
  constructor
  · intro k hk
    constructor
    · rw [is_start_of_io_slot_eq tags k hk, Option.some_inj]
      unfold ioStartB
      by_cases h0 : k = 0
      · subst h0
        by_cases hO : tags.getD 0 [] = OUTSIDE <;> simp [hO]
      · by_cases hO : tags.getD k [] = OUTSIDE <;>
          by_cases hP : tags.getD (k - 1) [] = OUTSIDE <;> simp [h0, hO, hP]
    · rw [is_end_of_io_slot_eq tags k hk, Option.some_inj]
      unfold ioEndB
      by_cases h0 : k + 1 = tags.length
      · by_cases hO : tags.getD k [] = OUTSIDE <;> simp [h0, hO]
      · by_cases hO : tags.getD k [] = OUTSIDE <;>
          by_cases hN : tags.getD (k + 1) [] = OUTSIDE <;> simp [h0, hO, hN]
  · have hSi : ioStartB tags i = true := by
      unfold ioStartB
      by_cases h0 : i = 0
      · subst h0
        rw [if_pos rfl]
        exact decide_eq_true (hrun 0 (le_refl 0) hij)
      · rcases hleft with h | h
        · exact absurd h h0
        · rw [if_neg h0, if_neg (hrun i (le_refl i) hij)]
          exact decide_eq_true h
    have hSmid : ∀ k, i < k → k ≤ j → ioStartB tags k = false := by
      intro k h1 h2
      unfold ioStartB
      rw [if_neg (by omega : ¬ k = 0), if_neg (hrun k (by omega) h2)]
      exact decide_eq_false (hrun (k - 1) (by omega) (by omega))
    have hEmid : ∀ k, i ≤ k → k < j → ioEndB tags k = false := by
      intro k h1 h2
      unfold ioEndB
      rw [if_neg (by omega : ¬ k + 1 = tags.length), if_neg (hrun k h1 (by omega))]
      exact decide_eq_false (hrun (k + 1) (by omega) (by omega))
    have hEj : ioEndB tags j = true := by
      unfold ioEndB
      by_cases h0 : j + 1 = tags.length
      · rw [if_pos h0]
        exact decide_eq_true (hrun j hij (le_refl j))
      · rcases hright with h | h
        · exact absurd h h0
        · rw [if_neg h0, if_neg (hrun j hij (le_refl j))]
          exact decide_eq_true h
    have hdec := tagsLoop_eq_runsFrom is_start_of_io_slot is_end_of_io_slot
      (ioStartB tags) (ioEndB tags) tags tokens hlen.symm
      (fun k hk => is_start_of_io_slot_eq tags k hk)
      (fun k hk => is_end_of_io_slot_eq tags k hk) tags 0 0 (by simp) (le_refl 0)
    refine ⟨runsFrom (ioStartB tags) (ioEndB tags) i 0 0,
      runsFrom (ioStartB tags) (ioEndB tags) ((tags.length - i) - (j + 1 - i)) (j + 1) j,
      ?_, ?_, ?_⟩
    · rw [show tags_to_slot_ranges tokens tags TaggingScheme.io =
            tagsLoop is_start_of_io_slot is_end_of_io_slot tags tokens tags 0 0 from rfl,
          hdec]
      congr 2
      rw [show runsFrom (ioStartB tags) (ioEndB tags) tags.length 0 0 =
            runsFrom (ioStartB tags) (ioEndB tags) (i + (tags.length - i)) 0 0 by
          congr 1
          omega,
        runsFrom_append (ioStartB tags) (ioEndB tags) i (tags.length - i) 0 0,
        Nat.zero_add i,
        runsFrom_run (ioStartB tags) (ioEndB tags) i j hij hSi hSmid hEmid hEj
          (tags.length - i) (csAfter (ioStartB tags) (ioEndB tags) i 0 0) (by omega)]
    · intro p hp
      have hb := runsFrom_end_bounds (ioStartB tags) (ioEndB tags) i 0 0 p hp
      omega
    · intro p hp
      have hb := runsFrom_end_bounds (ioStartB tags) (ioEndB tags)
        ((tags.length - i) - (j + 1 - i)) (j + 1) j p hp
      omega

/-- C4 witness: tags `I-a, I-a` form one maximal run over positions 0..1. -/
theorem C4_witness :
    (["I-a".toList, "I-a".toList] : List Tag).length =
      ([⟨"x".toList, ⟨0, 1⟩, ⟨0, 1⟩⟩, ⟨"y".toList, ⟨2, 3⟩, ⟨2, 3⟩⟩] : List Token).length ∧
    (∃ pre post : List (Nat × Nat),
      tags_to_slot_ranges [⟨"x".toList, ⟨0, 1⟩, ⟨0, 1⟩⟩, ⟨"y".toList, ⟨2, 3⟩, ⟨2, 3⟩⟩]
          ["I-a".toList, "I-a".toList] TaggingScheme.io =
        some ((pre ++ (0, 1) :: post).map
          (mkSlotRange [⟨"x".toList, ⟨0, 1⟩, ⟨0, 1⟩⟩, ⟨"y".toList, ⟨2, 3⟩, ⟨2, 3⟩⟩]
            ["I-a".toList, "I-a".toList])) ∧
      (∀ p ∈ pre, p.2 < 0) ∧ (∀ p ∈ post, 1 < p.2)) := by
  refine ⟨by decide, ?_⟩
  exact (C4_io_decode_merges_adjacent_slots
    [⟨"x".toList, ⟨0, 1⟩, ⟨0, 1⟩⟩, ⟨"y".toList, ⟨2, 3⟩, ⟨2, 3⟩⟩]
    ["I-a".toList, "I-a".toList] 0 1 (by decide) (by decide) (by decide)
    (by decide) (by decide) (by decide)).2


/-! ### Encode/decode round trip: support lemmas -/

theorem decode_single_run (tokens : List Token) (tags : List Tag)
    (isS isE : List Tag → Nat → Option Bool) (isSB isEB : Nat → Bool) (i j : Nat)
    (hlen : tokens.length = tags.length)
    (hS : ∀ k, k < tags.length → isS tags k = some (isSB k))
    (hE : ∀ k, k < tags.length → isE tags k = some (isEB k))
    (hij : i ≤ j) (hjn : j < tags.length)
    (hSi : isSB i = true)
    (hSmid : ∀ k, i < k → k ≤ j → isSB k = false)
    (hEiff : ∀ k, k < tags.length → (isEB k = true ↔ k = j)) :
    tagsToSlotsImpl tags tokens isS isE =
      some [mkSlotRange tokens tags (i, j)] := by
  have hloop := tagsLoop_eq_runsFrom isS isE isSB isEB tags tokens hlen hS hE tags 0 0
    (by simp) (le_refl 0)
  have hEmid : ∀ k, i ≤ k → k < j → isEB k = false := by
    intro k h1 h2
    cases hc : isEB k with
    | false => rfl
    | true => exact absurd ((hEiff k (by omega)).mp hc) (by omega)
  have hEj : isEB j = true := (hEiff j hjn).mpr rfl
  have hpre : runsFrom isSB isEB i 0 0 = [] := by
    apply runsFrom_nil_of_no_end
    intro k hk1 hk2
    cases hc : isEB k with
    | false => rfl
    | true => exact absurd ((hEiff k (by omega)).mp hc) (by omega)
  have hpost : runsFrom isSB isEB ((tags.length - i) - (j + 1 - i)) (j + 1) j = [] := by
    apply runsFrom_nil_of_no_end
    intro k hk1 hk2
    cases hc : isEB k with
    | false => rfl
    | true => exact absurd ((hEiff k (by omega)).mp hc) (by omega)
  unfold tagsToSlotsImpl
  rw [hloop,
    show runsFrom isSB isEB tags.length 0 0 =
        runsFrom isSB isEB (i + (tags.length - i)) 0 0 by
      congr 1
      omega,
    runsFrom_append isSB isEB i (tags.length - i) 0 0,
    Nat.zero_add i,
    runsFrom_run isSB isEB i j hij hSi hSmid hEmid hEj (tags.length - i)
      (csAfter isSB isEB i 0 0) (by omega),
    hpre, hpost]
  simp

theorem range'_head (i m : Nat) : (List.range' i (m + 1))[0]? = some i := by
  rw [List.range'_succ]
  simp

theorem range'_getLast (i m : Nat) :
    (List.range' i (m + 1)).getLast? = some (i + m) := by
  rw [List.range'_concat, List.getLast?_concat, one_mul]

theorem prefixed_ne_outside (p name : List Char) (hp : p.length = 2) :
    p ++ name ≠ OUTSIDE := by
  intro h
  have hl := congrArg List.length h
  rw [List.length_append, hp] at hl
  simp [OUTSIDE] at hl
  omega

theorem prefix_of_prefixed (p q name : List Char) (hp : p.length = 2)
    (hq : q.length = 2) : p <+: (q ++ name) ↔ p = q := by
  rw [List.prefix_iff_eq_take, hp, ← hq, List.take_left]

theorem drop_two_prefixed (p name : List Char) (hp : p.length = 2) :
    (p ++ name).drop 2 = name := by
  rw [← hp]
  exact List.drop_left p name

theorem encodeTags_length (n i j : Nat) (name : List Char) (scheme : TaggingScheme) :
    (encodeTags n i j name scheme).length = n := by
  simp [encodeTags]

theorem encodeTags_getD (n i j k : Nat) (name : List Char) (scheme : TaggingScheme)
    (hk : k < n) :
    (encodeTags n i j name scheme).getD k [] =
      if i ≤ k ∧ k ≤ j then
        (( get_scheme_prefix k (List.range' i (j - i + 1)) scheme).getD []) ++ name
      else OUTSIDE := by
  unfold encodeTags
  rw [List.getD_eq_getElem?_getD, List.getElem?_map, List.getElem?_range hk]
  rfl

theorem get_scheme_prefix_bio_range' (i m k : Nat) :
    get_scheme_prefix k (List.range' i (m + 1)) TaggingScheme.bio =
      some (if k = i then BEGINNING_PREFIX else INSIDE_PREFIX) := by
  unfold get_scheme_prefix
  rw [range'_head]
  by_cases hk : k = i <;> simp [hk]

theorem get_scheme_prefix_bilou_range' (i m k : Nat) :
    get_scheme_prefix k (List.range' i (m + 1)) TaggingScheme.bilou =
      some (if m = 0 then UNIT_PREFIX
            else if k = i then BEGINNING_PREFIX
            else if k = i + m then LAST_PREFIX
            else INSIDE_PREFIX) := by
  unfold get_scheme_prefix
  by_cases hm : m = 0
  · subst hm
    simp [List.length_range']
  · have hlen1 : ¬ (List.range' i (m + 1)).length = 1 := by
      rw [List.length_range']
      omega
    rw [if_neg hlen1, range'_head]
    by_cases hk : k = i
    · simp [hk, hm]
    · rw [range'_getLast]
      by_cases hk2 : k = i + m <;> simp [hk, hk2, hm]


theorem roundtrip_io (name : List Char) (tokens : List Token) (i j : Nat)
    (hij : i ≤ j) (hjn : j < tokens.length) :
    tags_to_slot_ranges tokens (encodeTags tokens.length i j name TaggingScheme.io)
        TaggingScheme.io =
      some [{ slot_name := name,
              range := ⟨(tokens.getD i default).range.start,
                        (tokens.getD j default).range.stop⟩,
              char_range := ⟨(tokens.getD i default).char_range.start,
                             (tokens.getD j default).char_range.stop⟩ }] := by
  set n := tokens.length with hn
  set tags := encodeTags n i j name TaggingScheme.io with htags
  have htl : tags.length = n := encodeTags_length n i j name TaggingScheme.io
  have hval : ∀ k, k < n → tags.getD k [] =
      if i ≤ k ∧ k ≤ j then INSIDE_PREFIX ++ name else OUTSIDE := by
    intro k hk
    rw [htags, encodeTags_getD n i j k name TaggingScheme.io hk]
    rfl
  have hne : ∀ k, i ≤ k → k ≤ j → tags.getD k [] ≠ OUTSIDE := by
    intro k h1 h2
    rw [hval k (by omega), if_pos (And.intro h1 h2)]
    exact prefixed_ne_outside INSIDE_PREFIX name rfl
  have hout : ∀ k, k < n → ¬ (i ≤ k ∧ k ≤ j) → tags.getD k [] = OUTSIDE := by
    intro k hk hnot
    rw [hval k hk, if_neg hnot]
  have hSi : ioStartB tags i = true := by
    unfold ioStartB
    by_cases h0 : i = 0
    · rw [if_pos h0]
      refine decide_eq_true ?_
      rw [← h0]
      exact hne i (le_refl i) hij
    · rw [if_neg h0, if_neg (hne i (le_refl i) hij)]
      exact decide_eq_true (hout (i - 1) (by omega) (by omega))
  have hSmid : ∀ k, i < k → k ≤ j → ioStartB tags k = false := by
    intro k h1 h2
    unfold ioStartB
    rw [if_neg (by omega : ¬ k = 0), if_neg (hne k (by omega) h2)]
    exact decide_eq_false (hne (k - 1) (by omega) (by omega))
  have hEj : ioEndB tags j = true := by
    unfold ioEndB
    rw [htl]
    by_cases h0 : j + 1 = n
    · rw [if_pos h0]
      exact decide_eq_true (hne j hij (le_refl j))
    · rw [if_neg h0, if_neg (hne j hij (le_refl j))]
      exact decide_eq_true (hout (j + 1) (by omega) (by omega))
  have hEfalse : ∀ k, k < n → k ≠ j → ioEndB tags k = false := by
    intro k hk hkj
    unfold ioEndB
    rw [htl]
    by_cases hin : i ≤ k ∧ k ≤ j
    · have hklt : k < j := by omega
      rw [if_neg (by omega : ¬ k + 1 = n), if_neg (hne k hin.1 hin.2)]
      exact decide_eq_false (hne (k + 1) (by omega) (by omega))
    · have hO := hout k hk hin
      by_cases h0 : k + 1 = n
      · rw [if_pos h0]
        exact decide_eq_false (fun hc => hc hO)
      · rw [if_neg h0, if_pos hO]
  have hEiff : ∀ k, k < n → (ioEndB tags k = true ↔ k = j) := by
    intro k hk
    by_cases hkj : k = j
    · subst hkj
      rw [hEj]
      simp
    · rw [hEfalse k hk hkj]
      simp [hkj]
  have happ := decode_single_run tokens tags is_start_of_io_slot is_end_of_io_slot
    (ioStartB tags) (ioEndB tags) i j htl.symm
    (fun k hk => is_start_of_io_slot_eq tags k hk)
    (fun k hk => is_end_of_io_slot_eq tags k hk)
    hij (by rw [htl]; exact hjn)
    hSi hSmid (fun k hk => hEiff k (htl ▸ hk))
  rw [show tags_to_slot_ranges tokens tags TaggingScheme.io =
        tagsToSlotsImpl tags tokens is_start_of_io_slot is_end_of_io_slot from rfl,
    happ]
  simp only [mkSlotRange]
  rw [hval j (by omega), if_pos (And.intro hij (le_refl j))]
  unfold tag_name_to_slot_name
  rw [drop_two_prefixed INSIDE_PREFIX name rfl]


theorem roundtrip_bio (name : List Char) (tokens : List Token) (i j : Nat)
    (hij : i ≤ j) (hjn : j < tokens.length) :
    tags_to_slot_ranges tokens (encodeTags tokens.length i j name TaggingScheme.bio)
        TaggingScheme.bio =
      some [{ slot_name := name,
              range := ⟨(tokens.getD i default).range.start,
                        (tokens.getD j default).range.stop⟩,
              char_range := ⟨(tokens.getD i default).char_range.start,
                             (tokens.getD j default).char_range.stop⟩ }] := by
  set n := tokens.length with hn
  set tags := encodeTags n i j name TaggingScheme.bio with htags
  have htl : tags.length = n := encodeTags_length n i j name TaggingScheme.bio
  have hval : ∀ k, k < n → tags.getD k [] =
      if i ≤ k ∧ k ≤ j then
        (if k = i then BEGINNING_PREFIX else INSIDE_PREFIX) ++ name
      else OUTSIDE := by
    intro k hk
    rw [htags, encodeTags_getD n i j k name TaggingScheme.bio hk,
      get_scheme_prefix_bio_range']
    rfl
  have hne : ∀ k, i ≤ k → k ≤ j → tags.getD k [] ≠ OUTSIDE := by
    intro k h1 h2
    rw [hval k (by omega), if_pos (And.intro h1 h2)]
    by_cases hki : k = i
    · rw [if_pos hki]
      exact prefixed_ne_outside BEGINNING_PREFIX name rfl
    · rw [if_neg hki]
      exact prefixed_ne_outside INSIDE_PREFIX name rfl
  have hout : ∀ k, k < n → ¬ (i ≤ k ∧ k ≤ j) → tags.getD k [] = OUTSIDE := by
    intro k hk hnot
    rw [hval k hk, if_neg hnot]
  have hBi : BEGINNING_PREFIX.isPrefixOf (tags.getD i []) = true := by
    rw [hval i (by omega), if_pos (And.intro (le_refl i) hij), if_pos rfl,
      isPrefixOf_eq_decide]
    exact decide_eq_true
      ((prefix_of_prefixed BEGINNING_PREFIX BEGINNING_PREFIX name rfl rfl).mpr rfl)
  have hImid : ∀ k, i < k → k ≤ j →
      (INSIDE_PREFIX.isPrefixOf (tags.getD k []) = true ∧
       BEGINNING_PREFIX.isPrefixOf (tags.getD k []) = false) := by
    intro k h1 h2
    rw [hval k (by omega), if_pos (And.intro (by omega) h2), if_neg (by omega : ¬ k = i),
      isPrefixOf_eq_decide, isPrefixOf_eq_decide]
    constructor
    · exact decide_eq_true
        ((prefix_of_prefixed INSIDE_PREFIX INSIDE_PREFIX name rfl rfl).mpr rfl)
    · exact decide_eq_false (fun hc =>
        absurd ((prefix_of_prefixed BEGINNING_PREFIX INSIDE_PREFIX name rfl rfl).mp hc)
          (by decide))
  have hSi : bioStartB tags i = true := by
    unfold bioStartB
    by_cases h0 : i = 0
    · rw [if_pos h0]
      refine decide_eq_true ?_
      rw [← h0]
      exact hne i (le_refl i) hij
    · rw [if_neg h0, if_neg (hne i (le_refl i) hij), if_pos hBi]
  have hSmid : ∀ k, i < k → k ≤ j → bioStartB tags k = false := by
    intro k h1 h2
    unfold bioStartB
    rw [if_neg (by omega : ¬ k = 0), if_neg (hne k (by omega) h2),
      if_neg (by rw [(hImid k h1 h2).2]; exact Bool.false_ne_true)]
    exact decide_eq_false (hne (k - 1) (by omega) (by omega))
  have hEj : bioEndB tags j = true := by
    unfold bioEndB
    rw [htl]
    by_cases h0 : j + 1 = n
    · rw [if_pos h0]
      exact decide_eq_true (hne j hij (le_refl j))
    · rw [if_neg h0, if_neg (hne j hij (le_refl j)),
        show INSIDE_PREFIX.isPrefixOf (tags.getD (j + 1) []) = false from by
          rw [hout (j + 1) (by omega) (by omega)]
          rfl]
      rfl
  have hEfalse : ∀ k, k < n → k ≠ j → bioEndB tags k = false := by
    intro k hk hkj
    unfold bioEndB
    rw [htl]
    by_cases hin : i ≤ k ∧ k ≤ j
    · have hklt : k < j := by omega
      rw [if_neg (by omega : ¬ k + 1 = n), if_neg (hne k hin.1 hin.2),
        (hImid (k + 1) (by omega) (by omega)).1]
      rfl
    · have hO := hout k hk hin
      by_cases h0 : k + 1 = n
      · rw [if_pos h0]
        exact decide_eq_false (fun hc => hc hO)
      · rw [if_neg h0, if_pos hO]
  have hEiff : ∀ k, k < n → (bioEndB tags k = true ↔ k = j) := by
    intro k hk
    by_cases hkj : k = j
    · subst hkj
      rw [hEj]
      simp
    · rw [hEfalse k hk hkj]
      simp [hkj]
  have happ := decode_single_run tokens tags is_start_of_bio_slot is_end_of_bio_slot
    (bioStartB tags) (bioEndB tags) i j htl.symm
    (fun k hk => is_start_of_bio_slot_eq tags k hk)
    (fun k hk => is_end_of_bio_slot_eq tags k hk)
    hij (by rw [htl]; exact hjn)
    hSi hSmid (fun k hk => hEiff k (htl ▸ hk))
  rw [show tags_to_slot_ranges tokens tags TaggingScheme.bio =
        tagsToSlotsImpl tags tokens is_start_of_bio_slot is_end_of_bio_slot from rfl,
    happ]
  simp only [mkSlotRange]
  rw [hval j (by omega), if_pos (And.intro hij (le_refl j))]
  unfold tag_name_to_slot_name
  by_cases hji : j = i
  · rw [if_pos hji, drop_two_prefixed BEGINNING_PREFIX name rfl]
  · rw [if_neg hji, drop_two_prefixed INSIDE_PREFIX name rfl]


theorem prefixOf_prefixed_bool (p q : Tag) (name : List Char) (hp : p.length = 2)
    (hq : q.length = 2) : p.isPrefixOf (q ++ name) = decide (p = q) := by
  rw [isPrefixOf_eq_decide]
  by_cases h : p = q
  · rw [decide_eq_true ((prefix_of_prefixed p q name hp hq).mpr h), decide_eq_true h]
  · rw [decide_eq_false (fun hc => absurd ((prefix_of_prefixed p q name hp hq).mp hc) h),
      decide_eq_false h]

theorem roundtrip_bilou (name : List Char) (tokens : List Token) (i j : Nat)
    (hij : i ≤ j) (hjn : j < tokens.length) :
    tags_to_slot_ranges tokens (encodeTags tokens.length i j name TaggingScheme.bilou)
        TaggingScheme.bilou =
      some [{ slot_name := name,
              range := ⟨(tokens.getD i default).range.start,
                        (tokens.getD j default).range.stop⟩,
              char_range := ⟨(tokens.getD i default).char_range.start,
                             (tokens.getD j default).char_range.stop⟩ }] := by
  set n := tokens.length with hn
  set tags := encodeTags n i j name TaggingScheme.bilou with htags
  have htl : tags.length = n := encodeTags_length n i j name TaggingScheme.bilou
  have hval : ∀ k, k < n → tags.getD k [] =
      if i ≤ k ∧ k ≤ j then
        (if i = j then UNIT_PREFIX
         else if k = i then BEGINNING_PREFIX
         else if k = j then LAST_PREFIX
         else INSIDE_PREFIX) ++ name
      else OUTSIDE := by
    intro k hk
    rw [htags, encodeTags_getD n i j k name TaggingScheme.bilou hk,
      get_scheme_prefix_bilou_range']
    by_cases hin : i ≤ k ∧ k ≤ j
    · rw [if_pos hin, if_pos hin]
      by_cases hije : i = j
      · rw [if_pos (by omega : j - i = 0), if_pos hije, Option.getD_some]
      · rw [if_neg (by omega : ¬ j - i = 0), if_neg hije]
        by_cases hki : k = i
        · rw [if_pos hki, if_pos hki, Option.getD_some]
        · rw [if_neg hki, if_neg hki]
          by_cases hkj : k = j
          · rw [if_pos (by omega : k = i + (j - i)), if_pos hkj, Option.getD_some]
          · rw [if_neg (by omega : ¬ k = i + (j - i)), if_neg hkj, Option.getD_some]
    · rw [if_neg hin, if_neg hin]
  have hne : ∀ k, i ≤ k → k ≤ j → tags.getD k [] ≠ OUTSIDE := by
    intro k h1 h2
    rw [hval k (by omega), if_pos (And.intro h1 h2)]
    by_cases hije : i = j
    · rw [if_pos hije]
      exact prefixed_ne_outside UNIT_PREFIX name rfl
    · rw [if_neg hije]
      by_cases hki : k = i
      · rw [if_pos hki]
        exact prefixed_ne_outside BEGINNING_PREFIX name rfl
      · rw [if_neg hki]
        by_cases hkj : k = j
        · rw [if_pos hkj]
          exact prefixed_ne_outside LAST_PREFIX name rfl
        · rw [if_neg hkj]
          exact prefixed_ne_outside INSIDE_PREFIX name rfl
  have hout : ∀ k, k < n → ¬ (i ≤ k ∧ k ≤ j) → tags.getD k [] = OUTSIDE := by
    intro k hk hnot
    rw [hval k hk, if_neg hnot]
  have hSi : bilouStartB tags i = true := by
    have hBU : (BEGINNING_PREFIX.isPrefixOf (tags.getD i []) ||
        UNIT_PREFIX.isPrefixOf (tags.getD i [])) = true := by
      rw [hval i (by omega), if_pos (And.intro (le_refl i) hij)]
      by_cases hije : i = j
      · rw [if_pos hije,
          prefixOf_prefixed_bool BEGINNING_PREFIX UNIT_PREFIX name rfl rfl,
          prefixOf_prefixed_bool UNIT_PREFIX UNIT_PREFIX name rfl rfl]
        decide
      · rw [if_neg hije, if_pos rfl,
          prefixOf_prefixed_bool BEGINNING_PREFIX BEGINNING_PREFIX name rfl rfl,
          prefixOf_prefixed_bool UNIT_PREFIX BEGINNING_PREFIX name rfl rfl]
        decide
    unfold bilouStartB
    by_cases h0 : i = 0
    · rw [if_pos h0]
      refine decide_eq_true ?_
      rw [← h0]
      exact hne i (le_refl i) hij
    · rw [if_neg h0, if_neg (hne i (le_refl i) hij), if_pos hBU]
  have hSmid : ∀ k, i < k → k ≤ j → bilouStartB tags k = false := by
    intro k h1 h2
    have hij2 : ¬ i = j := by omega
    have hcur : tags.getD k [] = (if k = j then LAST_PREFIX else INSIDE_PREFIX) ++ name := by
      rw [hval k (by omega), if_pos (And.intro (by omega) h2), if_neg hij2,
        if_neg (by omega : ¬ k = i)]
    have hprev : tags.getD (k - 1) [] =
        (if k - 1 = i then BEGINNING_PREFIX else INSIDE_PREFIX) ++ name := by
      rw [hval (k - 1) (by omega), if_pos (And.intro (by omega) (by omega)), if_neg hij2]
      by_cases hpi : k - 1 = i
      · rw [if_pos hpi, if_pos hpi]
      · rw [if_neg hpi, if_neg (by omega : ¬ k - 1 = j), if_neg hpi]
    have hc1 : (BEGINNING_PREFIX.isPrefixOf (tags.getD k []) ||
        UNIT_PREFIX.isPrefixOf (tags.getD k [])) = false := by
      rw [hcur]
      by_cases hkj : k = j
      · rw [if_pos hkj,
          prefixOf_prefixed_bool BEGINNING_PREFIX LAST_PREFIX name rfl rfl,
          prefixOf_prefixed_bool UNIT_PREFIX LAST_PREFIX name rfl rfl]
        decide
      · rw [if_neg hkj,
          prefixOf_prefixed_bool BEGINNING_PREFIX INSIDE_PREFIX name rfl rfl,
          prefixOf_prefixed_bool UNIT_PREFIX INSIDE_PREFIX name rfl rfl]
        decide
    have hc2 : (UNIT_PREFIX.isPrefixOf (tags.getD (k - 1) []) ||
        LAST_PREFIX.isPrefixOf (tags.getD (k - 1) [])) = false := by
      rw [hprev]
      by_cases hpi : k - 1 = i
      · rw [if_pos hpi,
          prefixOf_prefixed_bool UNIT_PREFIX BEGINNING_PREFIX name rfl rfl,
          prefixOf_prefixed_bool LAST_PREFIX BEGINNING_PREFIX name rfl rfl]
        decide
      · rw [if_neg hpi,
          prefixOf_prefixed_bool UNIT_PREFIX INSIDE_PREFIX name rfl rfl,
          prefixOf_prefixed_bool LAST_PREFIX INSIDE_PREFIX name rfl rfl]
        decide
    unfold bilouStartB
    rw [if_neg (by omega : ¬ k = 0), if_neg (hne k (by omega) h2),
      if_neg (by rw [hc1]; exact Bool.false_ne_true),
      if_neg (by rw [hc2]; exact Bool.false_ne_true)]
    exact decide_eq_false (hne (k - 1) (by omega) (by omega))
  have hEj : bilouEndB tags j = true := by
    unfold bilouEndB
    rw [htl]
    by_cases h0 : j + 1 = n
    · rw [if_pos h0]
      exact decide_eq_true (hne j hij (le_refl j))
    · rw [if_neg h0, if_neg (hne j hij (le_refl j)),
        show decide (tags.getD (j + 1) [] = OUTSIDE) = true from
          decide_eq_true (hout (j + 1) (by omega) (by omega))]
      simp
  have hEfalse : ∀ k, k < n → k ≠ j → bilouEndB tags k = false := by
    intro k hk hkj
    unfold bilouEndB
    rw [htl]
    by_cases hin : i ≤ k ∧ k ≤ j
    · have hklt : k < j := by omega
      have hij2 : ¬ i = j := by omega
      have hcur : tags.getD k [] =
          (if k = i then BEGINNING_PREFIX else INSIDE_PREFIX) ++ name := by
        rw [hval k (by omega), if_pos hin, if_neg hij2]
        by_cases hki : k = i
        · rw [if_pos hki, if_pos hki]
        · rw [if_neg hki, if_neg (by omega : ¬ k = j), if_neg hki]
      have hnext : tags.getD (k + 1) [] =
          (if k + 1 = j then LAST_PREFIX else INSIDE_PREFIX) ++ name := by
        rw [hval (k + 1) (by omega), if_pos (And.intro (by omega) (by omega)),
          if_neg hij2, if_neg (by omega : ¬ k + 1 = i)]
      have b0 : decide (tags.getD (k + 1) [] = OUTSIDE) = false :=
        decide_eq_false (hne (k + 1) (by omega) (by omega))
      have b1 : LAST_PREFIX.isPrefixOf (tags.getD k []) = false := by
        rw [hcur]
        by_cases hki : k = i
        · rw [if_pos hki, prefixOf_prefixed_bool LAST_PREFIX BEGINNING_PREFIX name rfl rfl]
          decide
        · rw [if_neg hki, prefixOf_prefixed_bool LAST_PREFIX INSIDE_PREFIX name rfl rfl]
          decide
      have b2 : UNIT_PREFIX.isPrefixOf (tags.getD k []) = false := by
        rw [hcur]
        by_cases hki : k = i
        · rw [if_pos hki, prefixOf_prefixed_bool UNIT_PREFIX BEGINNING_PREFIX name rfl rfl]
          decide
        · rw [if_neg hki, prefixOf_prefixed_bool UNIT_PREFIX INSIDE_PREFIX name rfl rfl]
          decide
      have b3 : BEGINNING_PREFIX.isPrefixOf (tags.getD (k + 1) []) = false := by
        rw [hnext]
        by_cases hnj : k + 1 = j
        · rw [if_pos hnj, prefixOf_prefixed_bool BEGINNING_PREFIX LAST_PREFIX name rfl rfl]
          decide
        · rw [if_neg hnj, prefixOf_prefixed_bool BEGINNING_PREFIX INSIDE_PREFIX name rfl rfl]
          decide
      have b4 : UNIT_PREFIX.isPrefixOf (tags.getD (k + 1) []) = false := by
        rw [hnext]
        by_cases hnj : k + 1 = j
        · rw [if_pos hnj, prefixOf_prefixed_bool UNIT_PREFIX LAST_PREFIX name rfl rfl]
          decide
        · rw [if_neg hnj, prefixOf_prefixed_bool UNIT_PREFIX INSIDE_PREFIX name rfl rfl]
          decide
      rw [if_neg (by omega : ¬ k + 1 = n), if_neg (hne k hin.1 hin.2), b0, b1, b2, b3, b4]
      rfl
    · have hO := hout k hk hin
      by_cases h0 : k + 1 = n
      · rw [if_pos h0]
        exact decide_eq_false (fun hc => hc hO)
      · rw [if_neg h0, if_pos hO]
  have hEiff : ∀ k, k < n → (bilouEndB tags k = true ↔ k = j) := by
    intro k hk
    by_cases hkj : k = j
    · subst hkj
      rw [hEj]
      simp
    · rw [hEfalse k hk hkj]
      simp [hkj]
  have happ := decode_single_run tokens tags is_start_of_bilou_slot is_end_of_bilou_slot
    (bilouStartB tags) (bilouEndB tags) i j htl.symm
    (fun k hk => is_start_of_bilou_slot_eq tags k hk)
    (fun k hk => is_end_of_bilou_slot_eq tags k hk)
    hij (by rw [htl]; exact hjn)
    hSi hSmid (fun k hk => hEiff k (htl ▸ hk))
  rw [show tags_to_slot_ranges tokens tags TaggingScheme.bilou =
        tagsToSlotsImpl tags tokens is_start_of_bilou_slot is_end_of_bilou_slot from rfl,
    happ]
  simp only [mkSlotRange]
  rw [hval j (by omega), if_pos (And.intro hij (le_refl j))]
  unfold tag_name_to_slot_name
  by_cases hije : i = j
  · rw [if_pos hije, drop_two_prefixed UNIT_PREFIX name rfl]
  · rw [if_neg hije, if_neg (by omega : ¬ j = i), if_pos rfl,
      drop_two_prefixed LAST_PREFIX name rfl]


/-- C2: encode/decode round trip — for every tagging scheme, slot name, token
list and contiguous token-index span `[i..j]`, decoding the tag sequence that
carries `get_scheme_prefix` plus the slot name on the span and the outside
marker everywhere else yields exactly one `SlotRange`, spanning from token
`i`'s start to token `j`'s end and carrying the slot name (with all tags
outside the span outside, the IO adjacency caveat is vacuous). -/
theorem C2_encode_decode_roundtrip (scheme : TaggingScheme) (name : List Char)
    (tokens : List Token) (i j : Nat) (hij : i ≤ j) (hjn : j < tokens.length) :
    tags_to_slot_ranges tokens (encodeTags tokens.length i j name scheme) scheme =
      some [{ slot_name := name,
              range := ⟨(tokens.getD i default).range.start,
                        (tokens.getD j default).range.stop⟩,
              char_range := ⟨(tokens.getD i default).char_range.start,
                             (tokens.getD j default).char_range.stop⟩ }] := by
  cases scheme with
  | io => exact roundtrip_io name tokens i j hij hjn
  | bio => exact roundtrip_bio name tokens i j hij hjn
  | bilou => exact roundtrip_bilou name tokens i j hij hjn

/-- C2 witness. -/
theorem C2_witness :
    (0 : Nat) ≤ 1 ∧
    1 < ([⟨"ab".toList, ⟨0, 2⟩, ⟨0, 2⟩⟩, ⟨"cd".toList, ⟨3, 5⟩, ⟨3, 5⟩⟩,
          ⟨"ef".toList, ⟨6, 8⟩, ⟨6, 8⟩⟩] : List Token).length ∧
    tags_to_slot_ranges
        [⟨"ab".toList, ⟨0, 2⟩, ⟨0, 2⟩⟩, ⟨"cd".toList, ⟨3, 5⟩, ⟨3, 5⟩⟩,
         ⟨"ef".toList, ⟨6, 8⟩, ⟨6, 8⟩⟩]
        (encodeTags
          ([⟨"ab".toList, ⟨0, 2⟩, ⟨0, 2⟩⟩, ⟨"cd".toList, ⟨3, 5⟩, ⟨3, 5⟩⟩,
            ⟨"ef".toList, ⟨6, 8⟩, ⟨6, 8⟩⟩] : List Token).length
          0 1 "animal".toList TaggingScheme.bilou)
        TaggingScheme.bilou =
      some [{ slot_name := "animal".toList,
              range := ⟨(([⟨"ab".toList, ⟨0, 2⟩, ⟨0, 2⟩⟩, ⟨"cd".toList, ⟨3, 5⟩, ⟨3, 5⟩⟩,
                           ⟨"ef".toList, ⟨6, 8⟩, ⟨6, 8⟩⟩] : List Token).getD 0 default).range.start,
                        (([⟨"ab".toList, ⟨0, 2⟩, ⟨0, 2⟩⟩, ⟨"cd".toList, ⟨3, 5⟩, ⟨3, 5⟩⟩,
                           ⟨"ef".toList, ⟨6, 8⟩, ⟨6, 8⟩⟩] : List Token).getD 1 default).range.stop⟩,
              char_range := ⟨(([⟨"ab".toList, ⟨0, 2⟩, ⟨0, 2⟩⟩, ⟨"cd".toList, ⟨3, 5⟩, ⟨3, 5⟩⟩,
                           ⟨"ef".toList, ⟨6, 8⟩, ⟨6, 8⟩⟩] : List Token).getD 0 default).char_range.start,
                        (([⟨"ab".toList, ⟨0, 2⟩, ⟨0, 2⟩⟩, ⟨"cd".toList, ⟨3, 5⟩, ⟨3, 5⟩⟩,
                           ⟨"ef".toList, ⟨6, 8⟩, ⟨6, 8⟩⟩] : List Token).getD 1 default).char_range.stop⟩ }] := by
  refine ⟨by decide, by decide, ?_⟩
  exact C2_encode_decode_roundtrip TaggingScheme.bilou "animal".toList
    [⟨"ab".toList, ⟨0, 2⟩, ⟨0, 2⟩⟩, ⟨"cd".toList, ⟨3, 5⟩, ⟨3, 5⟩⟩,
     ⟨"ef".toList, ⟨6, 8⟩, ⟨6, 8⟩⟩] 0 1 (by decide) (by decide)


/-! ### Resolution of slot ranges into internal slots -/

theorem resolveSlots_ok (text : List Nat) (mapping : Tag → Option (List Char)) :
    ∀ ranges : List SlotRange,
      (∀ s ∈ ranges, s.range.start ≤ s.range.stop ∧ s.range.stop ≤ text.length) →
      (∀ s ∈ ranges, (mapping s.slot_name).isSome) →
      resolveSlots text mapping ranges =
        some (Except.ok (ranges.map (resolveSlot text mapping))) := by
  intro ranges
  induction ranges with
  | nil => intro _ _; rfl
  | cons s rest ih =>
    intro hb hm
    have hbs := hb s (List.mem_cons_self s rest)
    obtain ⟨e, he⟩ := Option.isSome_iff_exists.mp (hm s (List.mem_cons_self s rest))
    have hslice : sliceBytes text s.range =
        some ((text.drop s.range.start).take (s.range.stop - s.range.start)) := by
      unfold sliceBytes
      rw [if_pos hbs]
    have hrest := ih (fun t ht => hb t (List.mem_cons_of_mem s ht))
      (fun t ht => hm t (List.mem_cons_of_mem s ht))
    unfold resolveSlots
    rw [hslice]
    simp only [Option.bind_eq_bind, Option.some_bind, he, hrest]
    simp [resolveSlot, he]

theorem resolveSlots_err (text : List Nat) (mapping : Tag → Option (List Char)) :
    ∀ ranges : List SlotRange,
      (∀ s ∈ ranges, s.range.start ≤ s.range.stop ∧ s.range.stop ≤ text.length) →
      (∃ s ∈ ranges, mapping s.slot_name = none) →
      ∃ nm, (∃ s ∈ ranges, s.slot_name = nm) ∧ mapping nm = none ∧
        resolveSlots text mapping ranges =
          some (Except.error (missingMsg nm)) := by
  intro ranges
  induction ranges with
  | nil => intro _ hex; simp at hex
  | cons s rest ih =>
    intro hb hex
    have hbs := hb s (List.mem_cons_self s rest)
    have hslice : sliceBytes text s.range =
        some ((text.drop s.range.start).take (s.range.stop - s.range.start)) := by
      unfold sliceBytes
      rw [if_pos hbs]
    by_cases hms : mapping s.slot_name = none
    · refine ⟨s.slot_name, ⟨s, List.mem_cons_self s rest, rfl⟩, hms, ?_⟩
      unfold resolveSlots
      rw [hslice]
      simp only [Option.bind_eq_bind, Option.some_bind, hms]
    · obtain ⟨e, he⟩ := Option.ne_none_iff_exists'.mp hms
      have hex2 : ∃ t ∈ rest, mapping t.slot_name = none := by
        rcases hex with ⟨t, ht, htn⟩
        rcases List.mem_cons.mp ht with rfl | htr
        · exact absurd htn hms
        · exact ⟨t, htr, htn⟩
      obtain ⟨nm, ⟨t, htr, rfl⟩, hnone, hres⟩ :=
        ih (fun u hu => hb u (List.mem_cons_of_mem s hu)) hex2
      refine ⟨t.slot_name, ⟨t, List.mem_cons_of_mem s htr, rfl⟩, hnone, ?_⟩
      unfold resolveSlots
      rw [hslice]
      simp only [Option.bind_eq_bind, Option.some_bind, he, hres]

/-- C3: `tags_to_slots` fails exactly when a detected `SlotRange` carries a slot
name absent from the intent-slots mapping, and the error message names that
slot name; otherwise it returns one `InternalSlot` per `SlotRange`, in order,
whose value is the source text sliced by the byte range, whose entity is the
mapping value for the slot name, and whose char range and slot name are those
of the `SlotRange`. -/
theorem C3_tags_to_slots_spec (text : List Nat) (tokens : List Token)
    (tags : List Tag) (scheme : TaggingScheme)
    (mapping : Tag → Option (List Char)) (ranges : List SlotRange)
    (hranges : tags_to_slot_ranges tokens tags scheme = some ranges)
    (hbounds : ∀ s ∈ ranges,
      s.range.start ≤ s.range.stop ∧ s.range.stop ≤ text.length) :
    ((∀ s ∈ ranges, (mapping s.slot_name).isSome) →
      tags_to_slots text tokens tags scheme mapping =
        some (Except.ok (ranges.map (resolveSlot text mapping))) ∧
      ∀ s ∈ ranges,
        mapping s.slot_name = some ((resolveSlot text mapping s).entity)) ∧
    ((∃ s ∈ ranges, mapping s.slot_name = none) →
      ∃ nm, (∃ s ∈ ranges, s.slot_name = nm) ∧ mapping nm = none ∧
        tags_to_slots text tokens tags scheme mapping =
          some (Except.error (missingMsg nm))) := by
  have hts : tags_to_slots text tokens tags scheme mapping =
      resolveSlots text mapping ranges := by
    unfold tags_to_slots
    rw [hranges]
    rfl
  constructor
  · intro hall
    constructor
    · rw [hts]
      exact resolveSlots_ok text mapping ranges hbounds hall
    · intro s hs
      obtain ⟨e, he⟩ := Option.isSome_iff_exists.mp (hall s hs)
      rw [he]
      unfold resolveSlot
      rw [he]
      rfl
  · intro hex
    obtain ⟨nm, hmem, hnone, hres⟩ := resolveSlots_err text mapping ranges hbounds hex
    exact ⟨nm, hmem, hnone, by rw [hts]; exact hres⟩

/-- C3 witness: text "ab cd" (bytes), one detected slot named `pet`, mapped to
entity `animal`. -/
theorem C3_witness :
    tags_to_slot_ranges [⟨"ab".toList, ⟨0, 2⟩, ⟨0, 2⟩⟩, ⟨"cd".toList, ⟨3, 5⟩, ⟨3, 5⟩⟩]
        ["B-pet".toList, "O".toList] TaggingScheme.bio =
      some [⟨"pet".toList, ⟨0, 2⟩, ⟨0, 2⟩⟩] ∧
    tags_to_slots [97, 98, 32, 99, 100]
        [⟨"ab".toList, ⟨0, 2⟩, ⟨0, 2⟩⟩, ⟨"cd".toList, ⟨3, 5⟩, ⟨3, 5⟩⟩]
        ["B-pet".toList, "O".toList] TaggingScheme.bio
        (fun nm => if nm = "pet".toList then some "animal".toList else none) =
      some (Except.ok
        (([⟨"pet".toList, ⟨0, 2⟩, ⟨0, 2⟩⟩] : List SlotRange).map
          (resolveSlot [97, 98, 32, 99, 100]
            (fun nm => if nm = "pet".toList then some "animal".toList else none)))) := by
  refine ⟨by decide, ?_⟩
  exact ((C3_tags_to_slots_spec [97, 98, 32, 99, 100]
    [⟨"ab".toList, ⟨0, 2⟩, ⟨0, 2⟩⟩, ⟨"cd".toList, ⟨3, 5⟩, ⟨3, 5⟩⟩]
    ["B-pet".toList, "O".toList] TaggingScheme.bio
    (fun nm => if nm = "pet".toList then some "animal".toList else none)
    [⟨"pet".toList, ⟨0, 2⟩, ⟨0, 2⟩⟩] (by decide) (by decide)).1 (by decide)).1


/-! ### Feature-vector extractors -/

theorem getD_set_rat (l : List Rat) (i k : Nat) (a : Rat) (hk : k < l.length) :
    (l.set i a).getD k 0 = if k = i then a else l.getD k 0 := by
  by_cases h : k = i
  · subst h
    rw [if_pos rfl, List.getD_eq_getElem?_getD, List.getElem?_set, if_pos rfl]
    simp [hk]
  · rw [if_neg h, List.getD_eq_getElem?_getD, List.getElem?_set,
      if_neg (fun hh => h hh.symm), ← List.getD_eq_getElem?_getD]

theorem setIndices_spec :
    ∀ (idxs : List Nat) (res : List Rat), (∀ x ∈ idxs, x < res.length) →
      ∃ r, setIndices res idxs = some r ∧ r.length = res.length ∧
        ∀ k, k < res.length →
          r.getD k 0 = if k ∈ idxs then 1 else res.getD k 0 := by
  intro idxs
  induction idxs with
  | nil =>
    intro res _
    refine ⟨res, rfl, rfl, fun k _ => by simp⟩
  | cons x xs ih =>
    intro res hb
    have hx : x < res.length := hb x (List.mem_cons_self x xs)
    have hb2 : ∀ y ∈ xs, y < (res.set x 1).length := by
      intro y hy
      rw [List.length_set]
      exact hb y (List.mem_cons_of_mem x hy)
    obtain ⟨r, hr, hlen, hget⟩ := ih (res.set x 1) hb2
    refine ⟨r, ?_, ?_, ?_⟩
    · unfold setIndices at hr ⊢
      rw [List.foldlM_cons]
      unfold setOne
      rw [if_pos hx]
      simpa using hr
    · rw [hlen, List.length_set]
    · intro k hk
      have hget2 := hget k (by rw [List.length_set]; exact hk)
      rw [hget2, getD_set_rat res x k 1 hk]
      by_cases hkx : k = x <;> by_cases hcx : k ∈ xs <;>
        simp [hkx, hcx]

theorem hits_fold_spec (gazetteer : List Char → Bool) :
    ∀ (ngrams : List (List Char × List Nat)) (res : List Rat),
      (∀ ng ∈ ngrams, ∀ x ∈ ng.2, x < res.length) →
      ∃ r, List.foldlM
          (fun res ng => if gazetteer ng.1 then setIndices res ng.2 else some res)
          res ngrams = some r ∧
        r.length = res.length ∧
        ∀ k, k < res.length → r.getD k 0 =
          if ∃ ng ∈ ngrams, gazetteer ng.1 = true ∧ k ∈ ng.2 then 1
          else res.getD k 0 := by
  intro ngrams
  induction ngrams with
  | nil =>
    intro res _
    refine ⟨res, rfl, rfl, fun k _ => by simp⟩
  | cons ng rest ih =>
    intro res hb
    by_cases hc : gazetteer ng.1
    · obtain ⟨r1, hr1, hlen1, hget1⟩ := setIndices_spec ng.2 res
        (fun x hx => hb ng (List.mem_cons_self ng rest) x hx)
      obtain ⟨r, hr, hlen, hget⟩ := ih r1 (by
        intro u hu x hx
        rw [hlen1]
        exact hb u (List.mem_cons_of_mem ng hu) x hx)
      refine ⟨r, ?_, by rw [hlen, hlen1], ?_⟩
      · rw [List.foldlM_cons, if_pos hc, hr1]
        simpa using hr
      · intro k hk
        have h2 := hget k (by rw [hlen1]; exact hk)
        rw [h2, hget1 k hk]
        by_cases ha : ∃ u ∈ rest, gazetteer u.1 = true ∧ k ∈ u.2 <;>
          by_cases hck : k ∈ ng.2 <;>
            simp [ha, hck, hc]
    · obtain ⟨r, hr, hlen, hget⟩ :=
        ih res (fun u hu => hb u (List.mem_cons_of_mem ng hu))
      have hcf : gazetteer ng.1 = false := by
        cases hgn : gazetteer ng.1
        · rfl
        · exact absurd hgn hc
      refine ⟨r, ?_, hlen, ?_⟩
      · rw [List.foldlM_cons, if_neg hc]
        simpa using hr
      · intro k hk
        rw [hget k hk]
        have hiff : (∃ u ∈ ng :: rest, gazetteer u.1 = true ∧ k ∈ u.2) ↔
            (∃ u ∈ rest, gazetteer u.1 = true ∧ k ∈ u.2) := by
          constructor
          · rintro ⟨u, hu, h1, h2⟩
            rcases List.mem_cons.mp hu with rfl | hur
            · exact absurd h1 hc
            · exact ⟨u, hur, h1, h2⟩
          · rintro ⟨u, hu, h⟩
            exact ⟨u, List.mem_cons_of_mem ng hu, h⟩
        simp only [hiff]

theorem matcher_fold_spec (literal : List Char) :
    ∀ (ngrams : List (List Char × List Nat)) (res : List Rat),
      (∀ ng ∈ ngrams, ∀ x ∈ ng.2, x < res.length) →
      ∃ r, List.foldlM
          (fun res ng => if ng.1 = literal then setIndices res ng.2 else some res)
          res ngrams = some r ∧
        r.length = res.length ∧
        ∀ k, k < res.length → r.getD k 0 =
          if ∃ ng ∈ ngrams, ng.1 = literal ∧ k ∈ ng.2 then 1
          else res.getD k 0 := by
  intro ngrams
  induction ngrams with
  | nil =>
    intro res _
    refine ⟨res, rfl, rfl, fun k _ => by simp⟩
  | cons ng rest ih =>
    intro res hb
    by_cases hc : ng.1 = literal
    · obtain ⟨r1, hr1, hlen1, hget1⟩ := setIndices_spec ng.2 res
        (fun x hx => hb ng (List.mem_cons_self ng rest) x hx)
      obtain ⟨r, hr, hlen, hget⟩ := ih r1 (by
        intro u hu x hx
        rw [hlen1]
        exact hb u (List.mem_cons_of_mem ng hu) x hx)
      refine ⟨r, ?_, by rw [hlen, hlen1], ?_⟩
      · rw [List.foldlM_cons, if_pos hc, hr1]
        simpa using hr
      · intro k hk
        have h2 := hget k (by rw [hlen1]; exact hk)
        rw [h2, hget1 k hk]
        by_cases ha : ∃ u ∈ rest, u.1 = literal ∧ k ∈ u.2 <;>
          by_cases hck : k ∈ ng.2 <;>
            simp [ha, hck, hc]
    · obtain ⟨r, hr, hlen, hget⟩ :=
        ih res (fun u hu => hb u (List.mem_cons_of_mem ng hu))
      refine ⟨r, ?_, hlen, ?_⟩
      · rw [List.foldlM_cons, if_neg hc]
        simpa using hr
      · intro k hk
        rw [hget k hk]
        have hiff : (∃ u ∈ ng :: rest, u.1 = literal ∧ k ∈ u.2) ↔
            (∃ u ∈ rest, u.1 = literal ∧ k ∈ u.2) := by
          constructor
          · rintro ⟨u, hu, h1, h2⟩
            rcases List.mem_cons.mp hu with rfl | hur
            · exact absurd h1 hc
            · exact ⟨u, hur, h1, h2⟩
          · rintro ⟨u, hu, h⟩
            exact ⟨u, List.mem_cons_of_mem ng hu, h⟩
        simp only [hiff]


/-- C8: under the in-bounds precondition, `has_gazetteer_hits` returns a vector
whose length equals the token count, whose entry at `k` is 1 exactly when some
normalized n-gram whose text the gazetteer contains covers index `k`, and 0
otherwise; every entry is 0 or 1, so overlapping hits accumulate as a logical
OR and are never reset. -/
theorem C8_has_gazetteer_hits_spec (pr : PreprocessorResult)
    (gazetteer : List Char → Bool)
    (hbounds : ∀ ng ∈ pr.normalized_ngrams, ∀ x ∈ ng.2, x < pr.tokens.length) :
    ∃ v, has_gazetteer_hits pr gazetteer = some v ∧
      v.length = pr.tokens.length ∧
      ∀ k, k < pr.tokens.length →
        (v.getD k 0 = 1 ∨ v.getD k 0 = 0) ∧
        (v.getD k 0 = 1 ↔
          ∃ ng ∈ pr.normalized_ngrams, gazetteer ng.1 = true ∧ k ∈ ng.2) ∧
        (v.getD k 0 = 0 ↔
          ¬ ∃ ng ∈ pr.normalized_ngrams, gazetteer ng.1 = true ∧ k ∈ ng.2) := by
  obtain ⟨r, hr, hlen, hget⟩ := hits_fold_spec gazetteer pr.normalized_ngrams
    (List.replicate pr.tokens.length 0) (by
      intro ng hng x hx
      rw [List.length_replicate]
      exact hbounds ng hng x hx)
  refine ⟨r, ?_, by rw [hlen, List.length_replicate], ?_⟩
  · unfold has_gazetteer_hits
    exact hr
  · intro k hk
    have hv := hget k (by rw [List.length_replicate]; exact hk)
    have hz : (List.replicate pr.tokens.length (0 : Rat)).getD k 0 = 0 := by simp
    rw [hz] at hv
    by_cases hex : ∃ ng ∈ pr.normalized_ngrams, gazetteer ng.1 = true ∧ k ∈ ng.2
    · rw [hv, if_pos hex]
      exact ⟨Or.inl rfl, ⟨fun _ => hex, fun _ => rfl⟩,
        ⟨fun h1 => absurd h1 one_ne_zero, fun hn => absurd hex hn⟩⟩
    · rw [hv, if_neg hex]
      exact ⟨Or.inr rfl, ⟨fun h0 => absurd h0 zero_ne_one, fun hx => absurd hx hex⟩,
        ⟨fun _ => hex, fun _ => rfl⟩⟩

/-- C8 witness. -/
theorem C8_witness :
    (∀ ng ∈ (PreprocessorResult.mk
        [⟨"Bird".toList, "bird".toList, ⟨0, 4⟩, ⟨0, 4⟩, none⟩]
        [("bird".toList, [0])] []).normalized_ngrams,
      ∀ x ∈ ng.2, x < (PreprocessorResult.mk
        [⟨"Bird".toList, "bird".toList, ⟨0, 4⟩, ⟨0, 4⟩, none⟩]
        [("bird".toList, [0])] []).tokens.length) ∧
    ∃ v, has_gazetteer_hits (PreprocessorResult.mk
        [⟨"Bird".toList, "bird".toList, ⟨0, 4⟩, ⟨0, 4⟩, none⟩]
        [("bird".toList, [0])] [])
        (fun s => decide (s = "bird".toList)) = some v ∧
      v.length = (PreprocessorResult.mk
        [⟨"Bird".toList, "bird".toList, ⟨0, 4⟩, ⟨0, 4⟩, none⟩]
        [("bird".toList, [0])] []).tokens.length ∧
      ∀ k, k < (PreprocessorResult.mk
        [⟨"Bird".toList, "bird".toList, ⟨0, 4⟩, ⟨0, 4⟩, none⟩]
        [("bird".toList, [0])] []).tokens.length →
        (v.getD k 0 = 1 ∨ v.getD k 0 = 0) ∧
        (v.getD k 0 = 1 ↔
          ∃ ng ∈ (PreprocessorResult.mk
            [⟨"Bird".toList, "bird".toList, ⟨0, 4⟩, ⟨0, 4⟩, none⟩]
            [("bird".toList, [0])] []).normalized_ngrams,
            (fun s => decide (s = "bird".toList)) ng.1 = true ∧ k ∈ ng.2) ∧
        (v.getD k 0 = 0 ↔
          ¬ ∃ ng ∈ (PreprocessorResult.mk
            [⟨"Bird".toList, "bird".toList, ⟨0, 4⟩, ⟨0, 4⟩, none⟩]
            [("bird".toList, [0])] []).normalized_ngrams,
            (fun s => decide (s = "bird".toList)) ng.1 = true ∧ k ∈ ng.2) := by
  refine ⟨by decide, ?_⟩
  exact C8_has_gazetteer_hits_spec
    (PreprocessorResult.mk [⟨"Bird".toList, "bird".toList, ⟨0, 4⟩, ⟨0, 4⟩, none⟩]
      [("bird".toList, [0])] [])
    (fun s => decide (s = "bird".toList)) (by decide)

/-- C9: under the in-bounds precondition, `ngram_matcher` returns a vector whose
length equals the token count, whose entry at `k` is 1 exactly when some
formatted (surface-form) n-gram has text equal to the literal and covers `k`,
and 0 otherwise; when no formatted n-gram matches the literal the vector is
all-zero. -/
theorem C9_ngram_matcher_spec (pr : PreprocessorResult) (ngram_to_check : List Char)
    (hbounds : ∀ ng ∈ pr.formatted_ngrams, ∀ x ∈ ng.2, x < pr.tokens.length) :
    ∃ v, ngram_matcher pr ngram_to_check = some v ∧
      v.length = pr.tokens.length ∧
      (∀ k, k < pr.tokens.length →
        (v.getD k 0 = 1 ∨ v.getD k 0 = 0) ∧
        (v.getD k 0 = 1 ↔
          ∃ ng ∈ pr.formatted_ngrams, ng.1 = ngram_to_check ∧ k ∈ ng.2) ∧
        (v.getD k 0 = 0 ↔
          ¬ ∃ ng ∈ pr.formatted_ngrams, ng.1 = ngram_to_check ∧ k ∈ ng.2)) ∧
      ((∀ ng ∈ pr.formatted_ngrams, ng.1 ≠ ngram_to_check) →
        v = List.replicate pr.tokens.length 0) := by
  obtain ⟨r, hr, hlen, hget⟩ := matcher_fold_spec ngram_to_check pr.formatted_ngrams
    (List.replicate pr.tokens.length 0) (by
      intro ng hng x hx
      rw [List.length_replicate]
      exact hbounds ng hng x hx)
  have hlen2 : r.length = pr.tokens.length := by rw [hlen, List.length_replicate]
  refine ⟨r, ?_, hlen2, ?_, ?_⟩
  · unfold ngram_matcher
    exact hr
  · intro k hk
    have hv := hget k (by rw [List.length_replicate]; exact hk)
    have hz : (List.replicate pr.tokens.length (0 : Rat)).getD k 0 = 0 := by simp
    rw [hz] at hv
    by_cases hex : ∃ ng ∈ pr.formatted_ngrams, ng.1 = ngram_to_check ∧ k ∈ ng.2
    · rw [hv, if_pos hex]
      exact ⟨Or.inl rfl, ⟨fun _ => hex, fun _ => rfl⟩,
        ⟨fun h1 => absurd h1 one_ne_zero, fun hn => absurd hex hn⟩⟩
    · rw [hv, if_neg hex]
      exact ⟨Or.inr rfl, ⟨fun h0 => absurd h0 zero_ne_one, fun hx => absurd hx hex⟩,
        ⟨fun _ => hex, fun _ => rfl⟩⟩
  · intro hno
    apply List.ext_getElem
    · rw [hlen2, List.length_replicate]
    · intro k h1 h2
      have hk : k < pr.tokens.length := by rw [← hlen2]; exact h1
      have hv := hget k (by rw [List.length_replicate]; exact hk)
      have hz : (List.replicate pr.tokens.length (0 : Rat)).getD k 0 = 0 := by simp
      rw [hz] at hv
      have hnex : ¬ ∃ ng ∈ pr.formatted_ngrams, ng.1 = ngram_to_check ∧ k ∈ ng.2 := by
        rintro ⟨u, hu, h1u, _⟩
        exact hno u hu h1u
      rw [List.getElem_replicate, ← List.getD_eq_getElem r 0 h1, hv, if_neg hnex]

/-- C9 witness. -/
theorem C9_witness :
    (∀ ng ∈ (PreprocessorResult.mk
        [⟨"Bird".toList, "bird".toList, ⟨0, 4⟩, ⟨0, 4⟩, none⟩] []
        [("Bird".toList, [0])]).formatted_ngrams,
      ∀ x ∈ ng.2, x < (PreprocessorResult.mk
        [⟨"Bird".toList, "bird".toList, ⟨0, 4⟩, ⟨0, 4⟩, none⟩] []
        [("Bird".toList, [0])]).tokens.length) ∧
    ∃ v, ngram_matcher (PreprocessorResult.mk
        [⟨"Bird".toList, "bird".toList, ⟨0, 4⟩, ⟨0, 4⟩, none⟩] []
        [("Bird".toList, [0])]) "cat".toList = some v ∧
      v.length = (PreprocessorResult.mk
        [⟨"Bird".toList, "bird".toList, ⟨0, 4⟩, ⟨0, 4⟩, none⟩] []
        [("Bird".toList, [0])]).tokens.length ∧
      (∀ k, k < (PreprocessorResult.mk
        [⟨"Bird".toList, "bird".toList, ⟨0, 4⟩, ⟨0, 4⟩, none⟩] []
        [("Bird".toList, [0])]).tokens.length →
        (v.getD k 0 = 1 ∨ v.getD k 0 = 0) ∧
        (v.getD k 0 = 1 ↔
          ∃ ng ∈ (PreprocessorResult.mk
            [⟨"Bird".toList, "bird".toList, ⟨0, 4⟩, ⟨0, 4⟩, none⟩] []
            [("Bird".toList, [0])]).formatted_ngrams,
            ng.1 = "cat".toList ∧ k ∈ ng.2) ∧
        (v.getD k 0 = 0 ↔
          ¬ ∃ ng ∈ (PreprocessorResult.mk
            [⟨"Bird".toList, "bird".toList, ⟨0, 4⟩, ⟨0, 4⟩, none⟩] []
            [("Bird".toList, [0])]).formatted_ngrams,
            ng.1 = "cat".toList ∧ k ∈ ng.2)) ∧
      ((∀ ng ∈ (PreprocessorResult.mk
          [⟨"Bird".toList, "bird".toList, ⟨0, 4⟩, ⟨0, 4⟩, none⟩] []
          [("Bird".toList, [0])]).formatted_ngrams, ng.1 ≠ "cat".toList) →
        v = List.replicate (PreprocessorResult.mk
          [⟨"Bird".toList, "bird".toList, ⟨0, 4⟩, ⟨0, 4⟩, none⟩] []
          [("Bird".toList, [0])]).tokens.length 0) := by
  refine ⟨by decide, ?_⟩
  exact C9_ngram_matcher_spec
    (PreprocessorResult.mk [⟨"Bird".toList, "bird".toList, ⟨0, 4⟩, ⟨0, 4⟩, none⟩] []
      [("Bird".toList, [0])]) "cat".toList (by decide)

end Snips
